import Mathlib

set_option linter.unusedSectionVars false

/-!
Verification development for two GIMP subsystems:
1. the cage-transform coefficient calculator
   (app/gegl/gimpoperationcagecoefcalc.c), and
2. the item tree (app/core/gimpitemtree.c).

The cage kernel is embedded over an arbitrary linear ordered field `K`
together with IEEE-754-style special values (`GF K` adds +inf, -inf and NaN
on top of the finite values).  The arithmetic itself is exact (the embedding
abstracts from rounding and overflow); the special values follow the IEEE
rules the C code relies on: division of a nonzero finite value by zero gives
a signed infinity, 0/0 and 0*inf give NaN, log 0 gives -inf, log of a
negative number and sqrt of a negative number give NaN, and NaN propagates
through every operation.  The C library functions sqrt/log/atan2 and the
constant M_PI are external to the repository; they enter the model as an
abstract `CMath` bundle constrained only by `CMathOK` (sqrt 0 = 0,
sqrt of a positive is positive, pi is positive), which is all the kernel's
control flow depends on.
-/

/-- IEEE-style scalar: a finite value of the field `K`, a signed infinity,
or NaN. -/
inductive GF (K : Type) where
  | fin : K → GF K
  | pinf : GF K
  | ninf : GF K
  | nan : GF K
deriving DecidableEq

namespace GF

variable {K : Type} [LinearOrderedField K]

/-- IEEE negation. -/
def neg : GF K → GF K
  | fin a => fin (-a)
  | pinf => ninf
  | ninf => pinf
  | nan => nan

/-- IEEE addition: inf + (-inf) is NaN, NaN propagates. -/
def add : GF K → GF K → GF K
  | nan, _ => nan
  | _, nan => nan
  | fin a, fin b => fin (a + b)
  | fin _, pinf => pinf
  | fin _, ninf => ninf
  | pinf, fin _ => pinf
  | ninf, fin _ => ninf
  | pinf, pinf => pinf
  | ninf, ninf => ninf
  | pinf, ninf => nan
  | ninf, pinf => nan

/-- IEEE subtraction, as addition of the negation. -/
def sub (a b : GF K) : GF K := add a (neg b)

/-- IEEE multiplication: 0 * inf is NaN, NaN propagates. -/
def mul : GF K → GF K → GF K
  | nan, _ => nan
  | _, nan => nan
  | fin a, fin b => fin (a * b)
  | fin a, pinf => if 0 < a then pinf else if a < 0 then ninf else nan
  | fin a, ninf => if 0 < a then ninf else if a < 0 then pinf else nan
  | pinf, fin b => if 0 < b then pinf else if b < 0 then ninf else nan
  | ninf, fin b => if 0 < b then ninf else if b < 0 then pinf else nan
  | pinf, pinf => pinf
  | ninf, ninf => pinf
  | pinf, ninf => ninf
  | ninf, pinf => ninf

/-- IEEE division.  The zero of the kernel's computations is +0 (it arises
as `sqrt (x - x)` and similar), so a nonzero finite value divided by zero is
the correspondingly signed infinity, and 0/0 is NaN. -/
def div : GF K → GF K → GF K
  | nan, _ => nan
  | _, nan => nan
  | fin a, fin b =>
      if b = 0 then (if 0 < a then pinf else if a < 0 then ninf else nan)
      else fin (a / b)
  | fin _, pinf => fin 0
  | fin _, ninf => fin 0
  | pinf, fin b => if 0 ≤ b then pinf else ninf
  | ninf, fin b => if 0 ≤ b then ninf else pinf
  | pinf, pinf => nan
  | pinf, ninf => nan
  | ninf, pinf => nan
  | ninf, ninf => nan

/-- `sqrt` lifted to `GF`: NaN on negative arguments, driven by the abstract
finite square root `sq`. -/
def sqrtG (sq : K → K) : GF K → GF K
  | fin a => if a < 0 then nan else fin (sq a)
  | pinf => pinf
  | ninf => nan
  | nan => nan

/-- `log` lifted to `GF`: NaN on negative arguments, -inf at zero, driven by
the abstract finite logarithm `lg`. -/
def logG (lg : K → K) : GF K → GF K
  | fin a => if a < 0 then nan else if a = 0 then ninf else fin (lg a)
  | pinf => pinf
  | ninf => nan
  | nan => nan

/-- `atan2` lifted to `GF`.  In this development both arguments are always
finite (the first is a wrapped field value and the second is the result of
`sqrtG` on a provably nonnegative finite argument), so only the finite and
NaN cases matter; the unreached infinite-argument cases are collapsed to
NaN. -/
def atan2G (at2 : K → K → K) : GF K → GF K → GF K
  | fin y, fin x => fin (at2 y x)
  | _, _ => nan

/-- The `isnan` test of the C guard. -/
def isnan : GF K → Bool
  | nan => true
  | _ => false

/-- A value is finite when it is neither an infinity nor NaN. -/
def isFinite : GF K → Bool
  | fin _ => true
  | _ => false

@[simp] theorem add_finfin (a b : K) : add (fin a) (fin b) = fin (a + b) := rfl

@[simp] theorem neg_fin (a : K) : neg (fin a) = fin (-a) := rfl

@[simp] theorem sub_finfin (a b : K) : sub (fin a) (fin b) = fin (a - b) := by
  simp [sub, add, neg, sub_eq_add_neg]

@[simp] theorem mul_finfin (a b : K) : mul (fin a) (fin b) = fin (a * b) := rfl

theorem div_finfin (a b : K) (hb : b ≠ 0) :
    div (fin a) (fin b) = fin (a / b) := by
  simp [div, hb]

@[simp] theorem add_nan (x : GF K) : add nan x = nan := by
  cases x <;> rfl

@[simp] theorem add_nan_right (x : GF K) : add x nan = nan := by
  cases x <;> rfl

@[simp] theorem mul_nan (x : GF K) : mul nan x = nan := by
  cases x <;> rfl

@[simp] theorem mul_nan_right (x : GF K) : mul x nan = nan := by
  cases x <;> rfl

@[simp] theorem sub_nan (x : GF K) : sub nan x = nan := by
  cases x <;> rfl

@[simp] theorem sub_nan_right (x : GF K) : sub x nan = nan := by
  cases x <;> rfl

@[simp] theorem isnan_nan : (isnan (nan : GF K)) = true := rfl

@[simp] theorem isnan_fin (a : K) : isnan (fin a) = false := rfl

@[simp] theorem isFinite_fin (a : K) : isFinite (fin a) = true := rfl

theorem isFinite_iff (x : GF K) : isFinite x = true ↔ ∃ a : K, x = fin a := by
  cases x <;> simp [isFinite]

/-- Division of a finite value by (positive) zero is never finite:
it yields a signed infinity or NaN. -/
theorem div_fin_zero_not_finite (a : K) :
    isFinite (div (fin a) (fin 0)) = false := by
  by_cases h0 : 0 < a
  · simp [div, h0, isFinite]
  · by_cases h1 : a < 0 <;> simp [div, h0, h1, isFinite]

/-- The difference of two non-finite values is non-finite. -/
theorem sub_not_finite {x y : GF K} (hx : isFinite x = false)
    (hy : isFinite y = false) : isFinite (sub x y) = false := by
  cases x <;> cases y <;> simp_all [isFinite, sub, add, neg]

/-- Multiplying (finite) zero by a non-finite value gives NaN. -/
theorem mul_zero_not_finite {x : GF K} (hx : isFinite x = false) :
    mul (fin (0 : K)) x = nan := by
  cases x <;> simp_all [isFinite, mul]

end GF

/-- The external C math library used by the kernel: `sqrt`, `log`, `atan2`
and the constant `M_PI`, restricted to finite arguments (`GF.sqrtG` etc.
add the special-value behaviour). -/
structure CMath (K : Type) where
  sqrt : K → K
  log : K → K
  atan2 : K → K → K
  pi : K

/-- The properties of the C math library the kernel's control flow relies
on: the square root of (positive) zero is zero, the square root of a
positive number is positive, and pi is positive. -/
def CMathOK {K : Type} [LinearOrderedField K] (M : CMath K) : Prop :=
  M.sqrt 0 = 0 ∧ (∀ x : K, 0 < x → 0 < M.sqrt x) ∧ 0 < M.pi

/-- The cage configuration (`GimpCageConfig`), an external collaborator of
the kernel: a vertex count, the vertex array, and the authoritative
point-in-polygon test.  Modelled from the spec: `gimpcageconfig.c` is not
part of the analysed sources; the spec specifies `vertex_count` (a positive
integer N), `vertices` (an ordered sequence of N 2-D points) and
`point_inside(x, y) → bool` whose result the caller treats as
authoritative, which is exactly what the kernel reads. -/
structure GimpCageConfig (K : Type) where
  cage_vertice_number : ℕ
  cage_vertices : List (K × K)
  point_inside : ℤ → ℤ → Bool
  len_ok : cage_vertices.length = cage_vertice_number

namespace Cage

variable {K : Type} [LinearOrderedField K]

/-- Modelled from the spec: `gimp_vector2_normalize` (libgimpmath, not part
of the analysed sources) normalizes a 2-D vector to unit length by dividing
by its Euclidean length; the zero vector (zero length) is left as the zero
vector. -/
def gimp_vector2_normalize (M : CMath K) (v : K × K) : K × K :=
  let len := M.sqrt (v.1 * v.1 + v.2 * v.2)
  if len = 0 then (0, 0) else (v.1 * (1 / len), v.2 * (1 / len))

/-- `gimp_operation_cage_coef_calc_is_on_straight`: normalize `p - d1` and
`d2 - d1` and test whether the determinant of the unit vectors is within
1e-9 of zero. -/
def is_on_straight (M : CMath K) (d1 d2 p : K × K) : Bool :=
  let v1 := gimp_vector2_normalize M (p.1 - d1.1, p.2 - d1.2)
  let v2 := gimp_vector2_normalize M (d2.1 - d1.1, d2.2 - d1.2)
  let deter := v1.1 * v2.2 - v2.1 * v1.2
  decide (deter < (1 / 1000000000 : K)) && decide (-(1 / 1000000000 : K) < deter)

/-!
The per-edge numeric values of the kernel body, over the raw edge geometry
`a = v2 - v1` (components `aX`, `aY`) and `b = v1 - p` (components `bX`,
`bY`).  Each local float variable of the C body (`Q`, `S`, `R`, `BA`,
`SRT`, `L0`, `L1`, `A0`, `A1`, `A10`, `L10`) becomes one definition, named
with a `c` in front.
-/

/-- `Q = a.x * a.x + a.y * a.y`. -/
def cQ (aX aY : K) : K := aX * aX + aY * aY

/-- `S = b.x * b.x + b.y * b.y`. -/
def cS (bX bY : K) : K := bX * bX + bY * bY

/-- `R = 2.0 * (a.x * b.x + a.y * b.y)`. -/
def cR (aX aY bX bY : K) : K := 2 * (aX * bX + aY * bY)

/-- `BA = b.x * a.y - b.y * a.x`. -/
def cBA (aX aY bX bY : K) : K := bX * aY - bY * aX

/-- The argument of the square root, `4.0 * S * Q - R * R`. -/
def cSRTarg (aX aY bX bY : K) : K :=
  4 * cS bX bY * cQ aX aY - cR aX aY bX bY * cR aX aY bX bY

/-- `SRT = sqrt (4.0 * S * Q - R * R)`. -/
def cSRT (M : CMath K) (aX aY bX bY : K) : GF K :=
  GF.sqrtG M.sqrt (GF.fin (cSRTarg aX aY bX bY))

/-- `L0 = log S`. -/
def cL0 (M : CMath K) (bX bY : K) : GF K := GF.logG M.log (GF.fin (cS bX bY))

/-- `L1 = log (S + Q + R)`. -/
def cL1 (M : CMath K) (aX aY bX bY : K) : GF K :=
  GF.logG M.log (GF.fin (cS bX bY + cQ aX aY + cR aX aY bX bY))

/-- `A0 = atan2 (R, SRT) / SRT`. -/
def cA0 (M : CMath K) (aX aY bX bY : K) : GF K :=
  GF.div (GF.atan2G M.atan2 (GF.fin (cR aX aY bX bY)) (cSRT M aX aY bX bY))
    (cSRT M aX aY bX bY)

/-- `A1 = atan2 (2.0 * Q + R, SRT) / SRT`. -/
def cA1 (M : CMath K) (aX aY bX bY : K) : GF K :=
  GF.div
    (GF.atan2G M.atan2 (GF.fin (2 * cQ aX aY + cR aX aY bX bY))
      (cSRT M aX aY bX bY))
    (cSRT M aX aY bX bY)

/-- `A10 = A1 - A0`. -/
def cA10 (M : CMath K) (aX aY bX bY : K) : GF K :=
  GF.sub (cA1 M aX aY bX bY) (cA0 M aX aY bX bY)

/-- `L10 = L1 - L0`. -/
def cL10 (M : CMath K) (aX aY bX bY : K) : GF K :=
  GF.sub (cL1 M aX aY bX bY) (cL0 M bX bY)

/-- The raw edge coefficient,
`(1 / (4 pi)) * ((4 S - R * R / Q) * A10 + (R / (2 Q)) * L10 + L1 - 2)`. -/
def cEdge (M : CMath K) (aX aY bX bY : K) : GF K :=
  GF.mul (GF.div (GF.fin 1) (GF.fin (4 * M.pi)))
    (GF.sub
      (GF.add
        (GF.add
          (GF.mul
            (GF.sub (GF.fin (4 * cS bX bY))
              (GF.div (GF.fin (cR aX aY bX bY * cR aX aY bX bY))
                (GF.fin (cQ aX aY))))
            (cA10 M aX aY bX bY))
          (GF.mul
            (GF.div (GF.fin (cR aX aY bX bY)) (GF.fin (2 * cQ aX aY)))
            (cL10 M aX aY bX bY)))
        (cL1 M aX aY bX bY))
      (GF.fin 2))

/-- The stored edge coefficient: `0` is substituted when the raw value is
NaN (`if (isnan (...)) coef[...] = 0.0;`). -/
def cEdgeG (M : CMath K) (aX aY bX bY : K) : GF K :=
  if GF.isnan (cEdge M aX aY bX bY) then GF.fin 0 else cEdge M aX aY bX bY

/-- The contribution added to `coef[j]`:
`(BA / (2 pi)) * (L10 / (2 Q) - A10 * (2 + R / Q))`. -/
def cVertA (M : CMath K) (aX aY bX bY : K) : GF K :=
  GF.mul (GF.div (GF.fin (cBA aX aY bX bY)) (GF.fin (2 * M.pi)))
    (GF.sub (GF.div (cL10 M aX aY bX bY) (GF.fin (2 * cQ aX aY)))
      (GF.mul (cA10 M aX aY bX bY)
        (GF.add (GF.fin 2)
          (GF.div (GF.fin (cR aX aY bX bY)) (GF.fin (cQ aX aY))))))

/-- The contribution subtracted from `coef[(j+1) % N]`:
`(BA / (2 pi)) * (L10 / (2 Q) - A10 * (R / Q))`. -/
def cVertB (M : CMath K) (aX aY bX bY : K) : GF K :=
  GF.mul (GF.div (GF.fin (cBA aX aY bX bY)) (GF.fin (2 * M.pi)))
    (GF.sub (GF.div (cL10 M aX aY bX bY) (GF.fin (2 * cQ aX aY)))
      (GF.mul (cA10 M aX aY bX bY)
        (GF.div (GF.fin (cR aX aY bX bY)) (GF.fin (cQ aX aY)))))

/-- The three per-edge values: the guarded edge coefficient and the two
vertex contributions. -/
def edgeVals (M : CMath K) (aX aY bX bY : K) : GF K × GF K × GF K :=
  (cEdgeG M aX aY bX bY, cVertA M aX aY bX bY, cVertB M aX aY bX bY)

/-- The output buffer: the writable float cursor of the tile, indexed from
the tile origin. -/
def Buf (K : Type) : Type := ℕ → GF K

/-- Pointwise buffer update. -/
def updB (b : Buf K) (i : ℕ) (v : GF K) : Buf K :=
  fun j => if j = i then v else b j

/-- One iteration of the per-edge loop of
`gimp_operation_cage_coef_calc_process` for the pixel `(x, y)` whose
coefficient block starts at `off`: write the NaN-guarded edge coefficient
into slot `off + N + j`, and unless the pixel is on the straight line of
the edge, accumulate the two vertex contributions into slots `off + j` and
`off + (j+1) % N`. -/
def edgeUpd (M : CMath K) (cfg : GimpCageConfig K) (x y : ℤ) (off : ℕ)
    (buf : Buf K) (j : ℕ) : Buf K :=
  let nV := cfg.cage_vertice_number
  let v1 := cfg.cage_vertices.getD j (0, 0)
  let v2 := cfg.cage_vertices.getD ((j + 1) % nV) (0, 0)
  let px : K := (x : K)
  let py : K := (y : K)
  let vals := edgeVals M (v2.1 - v1.1) (v2.2 - v1.2) (v1.1 - px) (v1.2 - py)
  let buf1 := updB buf (off + nV + j) vals.1
  if is_on_straight M v1 v2 (px, py) then buf1
  else
    let buf2 := updB buf1 (off + j) (GF.add (buf1 (off + j)) vals.2.1)
    updB buf2 (off + (j + 1) % nV)
      (GF.sub (buf2 (off + (j + 1) % nV)) vals.2.2)

/-- The whole per-pixel body: the per-edge loop over `j = 0 … N-1`. -/
def writePixel (M : CMath K) (cfg : GimpCageConfig K) (x y : ℤ) (off : ℕ)
    (buf : Buf K) : Buf K :=
  (List.range cfg.cage_vertice_number).foldl (edgeUpd M cfg x y off) buf

/-- The pixel loop of `gimp_operation_cage_coef_calc_process` over one tile:
`n` pixels starting at `(x, y)` with the cursor at `off`; for each pixel,
if it is inside the cage run the per-edge body, then advance the cursor by
`2 * N` and advance `x`, wrapping to `roiX` (and incrementing `y`) at the
end of a row. -/
def processPixels (M : CMath K) (cfg : GimpCageConfig K) (roiX roiW : ℤ) :
    ℕ → ℤ → ℤ → ℕ → Buf K → Buf K
  | 0, _, _, _, buf => buf
  | n + 1, x, y, off, buf =>
      let buf1 := if cfg.point_inside x y then writePixel M cfg x y off buf else buf
      let off1 := off + 2 * cfg.cage_vertice_number
      if x + 1 ≥ roiX + roiW
      then processPixels M cfg roiX roiW n roiX (y + 1) off1 buf1
      else processPixels M cfg roiX roiW n (x + 1) y off1 buf1

/-- The `GeglRectangle` region of interest handed to `process`. -/
structure GeglRectangle where
  x : ℤ
  y : ℤ
  width : ℤ
  height : ℤ

/-- `gimp_operation_cage_coef_calc_process`, one-tile form (its buffer
iterator yields the whole roi as a single tile; per the spec no state
survives across tiles).  The source computes the Babl format from
`2 * config->cage_vertice_number` BEFORE testing `if (! config)`; a NULL
configuration therefore dereferences a null pointer, modelled as `none`
(no defined result).  With a configuration present the function always
fills the buffer and returns TRUE. -/
def cage_coef_calc_process (cfgO : Option (GimpCageConfig K)) (M : CMath K)
    (roi : GeglRectangle) (buf : Buf K) : Option (Bool × Buf K) :=
  (cfgO.map (fun c => 2 * c.cage_vertice_number)).bind (fun _fmt =>
    if cfgO.isNone then some (false, buf)
    else
      cfgO.map (fun cfg =>
        (true,
         processPixels M cfg roi.x roi.width (roi.width * roi.height).toNat
           roi.x roi.y 0 buf)))

/-!  Arithmetic facts about the per-edge quantities. -/

theorem sum_sq_eq_zero {a b : K} (h : a * a + b * b = 0) : a = 0 ∧ b = 0 := by
  constructor <;> nlinarith [mul_self_nonneg a, mul_self_nonneg b]

/-- Lagrange identity specialised to the kernel:
`4 S Q - R^2 = 4 BA^2`. -/
theorem srtArg_eq_sq (aX aY bX bY : K) :
    cSRTarg aX aY bX bY = 4 * (cBA aX aY bX bY * cBA aX aY bX bY) := by
  unfold cSRTarg cS cQ cR cBA; ring

/-- When the signed area factor `BA` is nonzero, all the denominators of the
kernel are nonzero: `Q`, `S`, `S + Q + R` and the square-root argument are
all positive. -/
theorem pos_of_BA_ne {M : CMath K} (hM : CMathOK M) {aX aY bX bY : K}
    (hBA : cBA aX aY bX bY ≠ 0) :
    0 < cQ aX aY ∧ 0 < cS bX bY ∧
    0 < cS bX bY + cQ aX aY + cR aX aY bX bY ∧
    0 < cSRTarg aX aY bX bY ∧ 0 < M.sqrt (cSRTarg aX aY bX bY) := by
  have hQ0 : 0 ≤ cQ aX aY := add_nonneg (mul_self_nonneg aX) (mul_self_nonneg aY)
  have hS0 : 0 ≤ cS bX bY := add_nonneg (mul_self_nonneg bX) (mul_self_nonneg bY)
  have hQ : 0 < cQ aX aY := by
    rcases hQ0.lt_or_eq with h | h
    · exact h
    · obtain ⟨h1, h2⟩ := sum_sq_eq_zero h.symm
      exact absurd (by unfold cBA; rw [h1, h2]; ring) hBA
  have hS : 0 < cS bX bY := by
    rcases hS0.lt_or_eq with h | h
    · exact h
    · obtain ⟨h1, h2⟩ := sum_sq_eq_zero h.symm
      exact absurd (by unfold cBA; rw [h1, h2]; ring) hBA
  have hsum : cS bX bY + cQ aX aY + cR aX aY bX bY
      = (aX + bX) * (aX + bX) + (aY + bY) * (aY + bY) := by
    unfold cS cQ cR; ring
  have hsum0 : 0 ≤ cS bX bY + cQ aX aY + cR aX aY bX bY := by
    rw [hsum]
    exact add_nonneg (mul_self_nonneg _) (mul_self_nonneg _)
  have hsumpos : 0 < cS bX bY + cQ aX aY + cR aX aY bX bY := by
    rcases hsum0.lt_or_eq with h | h
    · exact h
    · rw [hsum] at h
      obtain ⟨h1, h2⟩ := sum_sq_eq_zero h.symm
      refine absurd ?_ hBA
      unfold cBA; linear_combination bX * h2 - bY * h1
  have harg : 0 < cSRTarg aX aY bX bY := by
    rw [srtArg_eq_sq]
    have := mul_self_pos.mpr hBA
    linarith
  exact ⟨hQ, hS, hsumpos, harg, hM.2.1 _ harg⟩

/-- With `BA` nonzero, `SRT` is a positive finite value. -/
theorem cSRT_of_BA_ne {M : CMath K} (hM : CMathOK M) {aX aY bX bY : K}
    (hBA : cBA aX aY bX bY ≠ 0) :
    cSRT M aX aY bX bY = GF.fin (M.sqrt (cSRTarg aX aY bX bY)) := by
  have h := (pos_of_BA_ne hM hBA).2.2.2.1
  simp [cSRT, GF.sqrtG, not_lt.mpr h.le]

theorem cA0_of_BA_ne {M : CMath K} (hM : CMathOK M) {aX aY bX bY : K}
    (hBA : cBA aX aY bX bY ≠ 0) :
    ∃ a : K, cA0 M aX aY bX bY = GF.fin a := by
  have hs := (pos_of_BA_ne hM hBA).2.2.2.2
  rw [cA0, cSRT_of_BA_ne hM hBA]
  exact ⟨_, by rw [GF.atan2G, GF.div_finfin _ _ (ne_of_gt hs)]⟩

theorem cA1_of_BA_ne {M : CMath K} (hM : CMathOK M) {aX aY bX bY : K}
    (hBA : cBA aX aY bX bY ≠ 0) :
    ∃ a : K, cA1 M aX aY bX bY = GF.fin a := by
  have hs := (pos_of_BA_ne hM hBA).2.2.2.2
  rw [cA1, cSRT_of_BA_ne hM hBA]
  exact ⟨_, by rw [GF.atan2G, GF.div_finfin _ _ (ne_of_gt hs)]⟩

theorem cA10_of_BA_ne {M : CMath K} (hM : CMathOK M) {aX aY bX bY : K}
    (hBA : cBA aX aY bX bY ≠ 0) :
    ∃ a : K, cA10 M aX aY bX bY = GF.fin a := by
  obtain ⟨a1, h1⟩ := cA1_of_BA_ne hM hBA
  obtain ⟨a0, h0⟩ := cA0_of_BA_ne hM hBA
  exact ⟨a1 - a0, by rw [cA10, h1, h0, GF.sub_finfin]⟩

theorem cL0_of_BA_ne {M : CMath K} (hM : CMathOK M) {aX aY bX bY : K}
    (hBA : cBA aX aY bX bY ≠ 0) :
    cL0 M bX bY = GF.fin (M.log (cS bX bY)) := by
  have hS := (pos_of_BA_ne hM hBA).2.1
  simp [cL0, GF.logG, not_lt.mpr hS.le, ne_of_gt hS]

theorem cL1_of_BA_ne {M : CMath K} (hM : CMathOK M) {aX aY bX bY : K}
    (hBA : cBA aX aY bX bY ≠ 0) :
    cL1 M aX aY bX bY
      = GF.fin (M.log (cS bX bY + cQ aX aY + cR aX aY bX bY)) := by
  have h := (pos_of_BA_ne hM hBA).2.2.1
  simp [cL1, GF.logG, not_lt.mpr h.le, ne_of_gt h]

theorem cL10_of_BA_ne {M : CMath K} (hM : CMathOK M) {aX aY bX bY : K}
    (hBA : cBA aX aY bX bY ≠ 0) :
    ∃ a : K, cL10 M aX aY bX bY = GF.fin a := by
  rw [cL10, cL1_of_BA_ne hM hBA, cL0_of_BA_ne hM hBA]
  exact ⟨_, GF.sub_finfin _ _⟩

theorem cEdge_of_BA_ne {M : CMath K} (hM : CMathOK M) {aX aY bX bY : K}
    (hBA : cBA aX aY bX bY ≠ 0) :
    ∃ a : K, cEdge M aX aY bX bY = GF.fin a := by
  have hQ := (pos_of_BA_ne hM hBA).1
  obtain ⟨a10, h10⟩ := cA10_of_BA_ne hM hBA
  obtain ⟨l10, hl10⟩ := cL10_of_BA_ne hM hBA
  have hpi : (4 : K) * M.pi ≠ 0 :=
    ne_of_gt (mul_pos (by norm_num) hM.2.2)
  have h2Q : (2 : K) * cQ aX aY ≠ 0 := ne_of_gt (mul_pos (by norm_num) hQ)
  rw [cEdge, h10, hl10, cL1_of_BA_ne hM hBA,
    GF.div_finfin _ _ (ne_of_gt hQ), GF.div_finfin _ _ hpi,
    GF.div_finfin _ _ h2Q]
  exact ⟨_, by rw [GF.sub_finfin, GF.mul_finfin, GF.mul_finfin,
    GF.add_finfin, GF.add_finfin, GF.sub_finfin, GF.mul_finfin]⟩

theorem cEdgeG_of_BA_ne {M : CMath K} (hM : CMathOK M) {aX aY bX bY : K}
    (hBA : cBA aX aY bX bY ≠ 0) :
    ∃ a : K, cEdgeG M aX aY bX bY = GF.fin a := by
  obtain ⟨a, ha⟩ := cEdge_of_BA_ne hM hBA
  exact ⟨a, by rw [cEdgeG, ha]; simp⟩

theorem cVertA_of_BA_ne {M : CMath K} (hM : CMathOK M) {aX aY bX bY : K}
    (hBA : cBA aX aY bX bY ≠ 0) :
    ∃ a : K, cVertA M aX aY bX bY = GF.fin a := by
  have hQ := (pos_of_BA_ne hM hBA).1
  obtain ⟨a10, h10⟩ := cA10_of_BA_ne hM hBA
  obtain ⟨l10, hl10⟩ := cL10_of_BA_ne hM hBA
  have hpi : (2 : K) * M.pi ≠ 0 :=
    ne_of_gt (mul_pos (by norm_num) hM.2.2)
  have h2Q : (2 : K) * cQ aX aY ≠ 0 := ne_of_gt (mul_pos (by norm_num) hQ)
  rw [cVertA, h10, hl10, GF.div_finfin _ _ (ne_of_gt hQ),
    GF.div_finfin _ _ hpi, GF.div_finfin _ _ h2Q]
  exact ⟨_, by rw [GF.add_finfin, GF.mul_finfin, GF.sub_finfin,
    GF.mul_finfin]⟩

theorem cVertB_of_BA_ne {M : CMath K} (hM : CMathOK M) {aX aY bX bY : K}
    (hBA : cBA aX aY bX bY ≠ 0) :
    ∃ a : K, cVertB M aX aY bX bY = GF.fin a := by
  have hQ := (pos_of_BA_ne hM hBA).1
  obtain ⟨a10, h10⟩ := cA10_of_BA_ne hM hBA
  obtain ⟨l10, hl10⟩ := cL10_of_BA_ne hM hBA
  have hpi : (2 : K) * M.pi ≠ 0 :=
    ne_of_gt (mul_pos (by norm_num) hM.2.2)
  have h2Q : (2 : K) * cQ aX aY ≠ 0 := ne_of_gt (mul_pos (by norm_num) hQ)
  rw [cVertB, h10, hl10, GF.div_finfin _ _ (ne_of_gt hQ),
    GF.div_finfin _ _ hpi, GF.div_finfin _ _ h2Q]
  exact ⟨_, by rw [GF.mul_finfin, GF.sub_finfin, GF.mul_finfin]⟩

/-- `0 / 0` is NaN. -/
theorem div_zero_zero : GF.div (GF.fin (0 : K)) (GF.fin (0 : K)) = GF.nan := by
  simp [GF.div]

/-- When `BA = 0` the raw edge coefficient is NaN and the guard stores `0`:
the degenerate-edge case (`Q = 0`) makes `R * R / Q` NaN, and the
collinear case makes `4 S - R^2 / Q` an exact zero multiplied by the
non-finite `A10 = atan2 (...) / 0 - atan2 (...) / 0`. -/
theorem cEdgeG_of_BA_eq {M : CMath K} (hM : CMathOK M) {aX aY bX bY : K}
    (hBA : cBA aX aY bX bY = 0) :
    cEdgeG M aX aY bX bY = GF.fin 0 := by
  have hQ0 : 0 ≤ cQ aX aY := add_nonneg (mul_self_nonneg aX) (mul_self_nonneg aY)
  have hE : cEdge M aX aY bX bY = GF.nan := by
    rcases hQ0.lt_or_eq with hQ | hQ
    · -- Q > 0 and BA = 0: the square-root argument is exactly 0
      have harg : cSRTarg aX aY bX bY = 0 := by
        rw [srtArg_eq_sq, hBA]; ring
      have hsrt : cSRT M aX aY bX bY = GF.fin 0 := by
        simp [cSRT, harg, GF.sqrtG, hM.1]
      have hA0 : GF.isFinite (cA0 M aX aY bX bY) = false := by
        rw [cA0, hsrt, GF.atan2G]
        exact GF.div_fin_zero_not_finite _
      have hA1 : GF.isFinite (cA1 M aX aY bX bY) = false := by
        rw [cA1, hsrt, GF.atan2G]
        exact GF.div_fin_zero_not_finite _
      have hA10 : GF.isFinite (cA10 M aX aY bX bY) = false :=
        GF.sub_not_finite hA1 hA0
      have hfactor : 4 * cS bX bY
          - cR aX aY bX bY * cR aX aY bX bY / cQ aX aY = 0 := by
        have h4 : 4 * cS bX bY * cQ aX aY
            = cR aX aY bX bY * cR aX aY bX bY := by
          have := srtArg_eq_sq aX aY bX bY
          rw [hBA] at this
          unfold cSRTarg at this
          linarith [this]
        field_simp
        linarith [h4]
      rw [cEdge, GF.div_finfin _ _ (ne_of_gt hQ), GF.sub_finfin, hfactor,
        GF.mul_zero_not_finite hA10]
      simp
    · -- Q = 0: the edge is degenerate, R = 0 and R * R / Q = 0 / 0 = NaN
      obtain ⟨h1, h2⟩ := @sum_sq_eq_zero K _ aX aY hQ.symm
      have hR : cR aX aY bX bY = 0 := by unfold cR; rw [h1, h2]; ring
      rw [cEdge, hR, ← hQ]
      norm_num [div_zero_zero]
  rw [cEdgeG, hE]
  simp

theorem normalize_fst (M : CMath K) (v : K × K) :
    (gimp_vector2_normalize M v).1
      = if M.sqrt (v.1 * v.1 + v.2 * v.2) = 0 then 0
        else v.1 * (1 / M.sqrt (v.1 * v.1 + v.2 * v.2)) := by
  rw [gimp_vector2_normalize]
  split <;> rfl

theorem normalize_snd (M : CMath K) (v : K × K) :
    (gimp_vector2_normalize M v).2
      = if M.sqrt (v.1 * v.1 + v.2 * v.2) = 0 then 0
        else v.2 * (1 / M.sqrt (v.1 * v.1 + v.2 * v.2)) := by
  rw [gimp_vector2_normalize]
  split <;> rfl

/-- If the determinant condition of the collinearity test holds exactly
(`BA = 0`), the test reports `true`: either one of the two vectors is zero
(then its normalization is the zero vector and the determinant is zero), or
both normalizations are genuine and the determinant is `-BA` scaled by the
inverse lengths, hence zero. -/
theorem straight_of_BA_eq {M : CMath K} (d1 d2 p : K × K)
    (h : (d1.1 - p.1) * (d2.2 - d1.2) - (d1.2 - p.2) * (d2.1 - d1.1) = 0) :
    is_on_straight M d1 d2 p = true := by
  have heps : (0 : K) < 1 / 1000000000 := by norm_num
  simp only [is_on_straight, normalize_fst, normalize_snd]
  by_cases h1 : M.sqrt ((p.1 - d1.1) * (p.1 - d1.1) + (p.2 - d1.2) * (p.2 - d1.2)) = 0
  · by_cases h2 : M.sqrt ((d2.1 - d1.1) * (d2.1 - d1.1) + (d2.2 - d1.2) * (d2.2 - d1.2)) = 0 <;>
      simp [h1, h2, heps, neg_lt_zero]
  · by_cases h2 : M.sqrt ((d2.1 - d1.1) * (d2.1 - d1.1) + (d2.2 - d1.2) * (d2.2 - d1.2)) = 0
    · simp [h1, h2, heps, neg_lt_zero]
    · have hz : (p.1 - d1.1) * (d2.2 - d1.2) - (d2.1 - d1.1) * (p.2 - d1.2) = 0 := by
        linear_combination -h
      have hdeter :
          (p.1 - d1.1) * (1 / M.sqrt ((p.1 - d1.1) * (p.1 - d1.1) + (p.2 - d1.2) * (p.2 - d1.2)))
            * ((d2.2 - d1.2) * (1 / M.sqrt ((d2.1 - d1.1) * (d2.1 - d1.1) + (d2.2 - d1.2) * (d2.2 - d1.2))))
          - (d2.1 - d1.1) * (1 / M.sqrt ((d2.1 - d1.1) * (d2.1 - d1.1) + (d2.2 - d1.2) * (d2.2 - d1.2)))
            * ((p.2 - d1.2) * (1 / M.sqrt ((p.1 - d1.1) * (p.1 - d1.1) + (p.2 - d1.2) * (p.2 - d1.2)))) = 0 := by
        have hfac :
            (p.1 - d1.1) * (1 / M.sqrt ((p.1 - d1.1) * (p.1 - d1.1) + (p.2 - d1.2) * (p.2 - d1.2)))
              * ((d2.2 - d1.2) * (1 / M.sqrt ((d2.1 - d1.1) * (d2.1 - d1.1) + (d2.2 - d1.2) * (d2.2 - d1.2))))
            - (d2.1 - d1.1) * (1 / M.sqrt ((d2.1 - d1.1) * (d2.1 - d1.1) + (d2.2 - d1.2) * (d2.2 - d1.2)))
              * ((p.2 - d1.2) * (1 / M.sqrt ((p.1 - d1.1) * (p.1 - d1.1) + (p.2 - d1.2) * (p.2 - d1.2))))
            = ((p.1 - d1.1) * (d2.2 - d1.2) - (d2.1 - d1.1) * (p.2 - d1.2))
              * (1 / M.sqrt ((p.1 - d1.1) * (p.1 - d1.1) + (p.2 - d1.2) * (p.2 - d1.2))
                 * (1 / M.sqrt ((d2.1 - d1.1) * (d2.1 - d1.1) + (d2.2 - d1.2) * (d2.2 - d1.2)))) := by
          ring
        rw [hfac, hz, zero_mul]
      simp only [if_neg h1, if_neg h2, hdeter]
      simp [heps, neg_lt_zero]

/-- If the collinearity test reports `false`, the exact signed area factor
`BA` of that edge is nonzero. -/
theorem BA_ne_of_not_straight {M : CMath K} {v1 v2 : K × K} {px py : K}
    (hst : is_on_straight M v1 v2 (px, py) = false) :
    cBA (v2.1 - v1.1) (v2.2 - v1.2) (v1.1 - px) (v1.2 - py) ≠ 0 := by
  intro h0
  have ht := @straight_of_BA_eq K _ M v1 v2 (px, py) (by simpa [cBA] using h0)
  rw [ht] at hst
  exact absurd hst (by simp)

/-- The guarded edge coefficient is finite for every edge geometry. -/
theorem cEdgeG_finite {M : CMath K} (hM : CMathOK M) (aX aY bX bY : K) :
    GF.isFinite (cEdgeG M aX aY bX bY) = true := by
  by_cases hBA : cBA aX aY bX bY = 0
  · rw [cEdgeG_of_BA_eq hM hBA]; rfl
  · obtain ⟨a, ha⟩ := cEdgeG_of_BA_ne hM hBA
    rw [ha]; rfl

theorem add_finite {x y : GF K} (hx : GF.isFinite x = true)
    (hy : GF.isFinite y = true) : GF.isFinite (GF.add x y) = true := by
  cases x <;> cases y <;> simp_all [GF.isFinite, GF.add]

theorem sub_finite {x y : GF K} (hx : GF.isFinite x = true)
    (hy : GF.isFinite y = true) : GF.isFinite (GF.sub x y) = true := by
  cases x <;> cases y <;> simp_all [GF.isFinite, GF.sub, GF.add, GF.neg]

theorem updB_ne {buf : Buf K} {v : GF K} {t i : ℕ} (h : i ≠ t) :
    updB buf t v i = buf i := by
  simp [updB, h]

theorem updB_self (buf : Buf K) (v : GF K) (t : ℕ) : updB buf t v t = v := by
  simp [updB]

theorem updB_allFinite {buf : Buf K} (hbuf : ∀ i, GF.isFinite (buf i) = true)
    {v : GF K} (hv : GF.isFinite v = true) (t : ℕ) :
    ∀ i, GF.isFinite (updB buf t v i) = true := by
  intro i
  by_cases h : i = t
  · rw [h, updB_self]; exact hv
  · rw [updB_ne h]; exact hbuf i

/-- One per-edge update keeps every buffer slot finite: the edge slot
receives the guarded (hence finite) edge coefficient, and the vertex slots
are touched only when the collinearity test fails, in which case the two
contributions are finite values added to finite slots. -/
theorem edgeUpd_allFinite {M : CMath K} (hM : CMathOK M)
    (cfg : GimpCageConfig K) (x y : ℤ) (off : ℕ) {buf : Buf K}
    (hbuf : ∀ i, GF.isFinite (buf i) = true) (j : ℕ) :
    ∀ i, GF.isFinite (edgeUpd M cfg x y off buf j i) = true := by
  intro i
  simp only [edgeUpd, edgeVals]
  set v1 := cfg.cage_vertices.getD j (0, 0)
  set v2 := cfg.cage_vertices.getD ((j + 1) % cfg.cage_vertice_number) (0, 0)
  split
  · exact updB_allFinite hbuf (cEdgeG_finite hM _ _ _ _) _ i
  · rename_i hst
    rw [Bool.not_eq_true] at hst
    have hBA := BA_ne_of_not_straight hst
    obtain ⟨a, ha⟩ := cVertA_of_BA_ne hM hBA
    obtain ⟨b, hb⟩ := cVertB_of_BA_ne hM hBA
    have h1 : ∀ i, GF.isFinite
        (updB buf (off + cfg.cage_vertice_number + j)
          (cEdgeG M (v2.1 - v1.1) (v2.2 - v1.2) (v1.1 - (x : K))
            (v1.2 - (y : K))) i) = true :=
      updB_allFinite hbuf (cEdgeG_finite hM _ _ _ _) _
    rw [ha, hb]
    refine updB_allFinite (updB_allFinite h1 ?_ _) ?_ _ i
    · exact add_finite (h1 _) (by rfl)
    · exact sub_finite (updB_allFinite h1 (add_finite (h1 _) (by rfl)) _ _) (by rfl)

/-- The whole per-pixel body keeps every slot finite. -/
theorem writePixel_allFinite {M : CMath K} (hM : CMathOK M)
    (cfg : GimpCageConfig K) (x y : ℤ) (off : ℕ) {buf : Buf K}
    (hbuf : ∀ i, GF.isFinite (buf i) = true) :
    ∀ i, GF.isFinite (writePixel M cfg x y off buf i) = true := by
  rw [writePixel]
  generalize List.range cfg.cage_vertice_number = l
  induction l generalizing buf with
  | nil => exact hbuf
  | cons j l ih =>
      exact ih (edgeUpd_allFinite hM cfg x y off hbuf j)

/-- The pixel loop keeps every slot finite. -/
theorem processPixels_allFinite {M : CMath K} (hM : CMathOK M)
    (cfg : GimpCageConfig K) (rX rW : ℤ) :
    ∀ (n : ℕ) (x y : ℤ) (off : ℕ) (buf : Buf K),
    (∀ i, GF.isFinite (buf i) = true) →
    ∀ i, GF.isFinite (processPixels M cfg rX rW n x y off buf i) = true := by
  intro n
  induction n with
  | zero => intro x y off buf hbuf i; exact hbuf i
  | succ n ih =>
      intro x y off buf hbuf i
      rw [processPixels]
      have hbuf1 : ∀ i, GF.isFinite
          ((if cfg.point_inside x y then writePixel M cfg x y off buf else buf) i) = true := by
        split
        · exact writePixel_allFinite hM cfg x y off hbuf
        · exact hbuf
      split
      · exact ih rX (y + 1) _ _ hbuf1 i
      · exact ih (x + 1) y _ _ hbuf1 i

/-- A per-edge update only writes inside the pixel's own 2N-slot block. -/
theorem edgeUpd_outside {M : CMath K} (cfg : GimpCageConfig K) (x y : ℤ)
    (off : ℕ) (buf : Buf K) {j : ℕ} (hj : j < cfg.cage_vertice_number)
    {i : ℕ} (hi : i < off ∨ off + 2 * cfg.cage_vertice_number ≤ i) :
    edgeUpd M cfg x y off buf j i = buf i := by
  have hjj : (j + 1) % cfg.cage_vertice_number < cfg.cage_vertice_number :=
    Nat.mod_lt _ (Nat.pos_of_ne_zero (by omega))
  have h1 : i ≠ off + cfg.cage_vertice_number + j := by omega
  have h2 : i ≠ off + j := by omega
  have h3 : i ≠ off + (j + 1) % cfg.cage_vertice_number := by omega
  simp only [edgeUpd, edgeVals]
  split
  · exact updB_ne h1
  · rw [updB_ne h3, updB_ne h2, updB_ne h1]

/-- The per-pixel body only writes inside the pixel's own 2N-slot block. -/
theorem writePixel_outside {M : CMath K} (cfg : GimpCageConfig K) (x y : ℤ)
    (off : ℕ) (buf : Buf K) {i : ℕ}
    (hi : i < off ∨ off + 2 * cfg.cage_vertice_number ≤ i) :
    writePixel M cfg x y off buf i = buf i := by
  rw [writePixel]
  have hmem : ∀ j ∈ List.range cfg.cage_vertice_number,
      j < cfg.cage_vertice_number := by
    intro j hjl; exact List.mem_range.mp hjl
  revert hmem
  generalize List.range cfg.cage_vertice_number = l
  intro hmem
  induction l generalizing buf with
  | nil => rfl
  | cons j l ih =>
      rw [List.foldl_cons,
        ih _ (fun e he => hmem e (List.mem_cons_of_mem j he)),
        edgeUpd_outside cfg x y off buf (hmem j (List.mem_cons_self j l)) hi]

/-- The pixel loop never writes below the cursor it starts at. -/
theorem processPixels_below {M : CMath K} (cfg : GimpCageConfig K)
    (rX rW : ℤ) : ∀ (n : ℕ) (x y : ℤ) (off : ℕ) (buf : Buf K) (i : ℕ),
    i < off → processPixels M cfg rX rW n x y off buf i = buf i := by
  intro n
  induction n with
  | zero => intro x y off buf i hi; rfl
  | succ n ih =>
      intro x y off buf i hi
      rw [processPixels]
      have hstep : (if cfg.point_inside x y then writePixel M cfg x y off buf else buf) i = buf i := by
        split
        · exact writePixel_outside cfg x y off buf (Or.inl hi)
        · rfl
      split
      · rw [ih rX (y + 1) _ _ i (by omega), hstep]
      · rw [ih (x + 1) y _ _ i (by omega), hstep]

/-- Two buffers agreeing on a pixel's 2N-slot block still agree on it after
the per-edge update (the update reads and writes only inside the block). -/
theorem edgeUpd_congrOn {M : CMath K} (cfg : GimpCageConfig K) (x y : ℤ)
    (off : ℕ) {buf1 buf2 : Buf K} {j : ℕ}
    (hj : j < cfg.cage_vertice_number)
    (hag : ∀ i, off ≤ i → i < off + 2 * cfg.cage_vertice_number →
      buf1 i = buf2 i) :
    ∀ i, off ≤ i → i < off + 2 * cfg.cage_vertice_number →
      edgeUpd M cfg x y off buf1 j i = edgeUpd M cfg x y off buf2 j i := by
  intro i hlo hhi
  have hjj : (j + 1) % cfg.cage_vertice_number < cfg.cage_vertice_number :=
    Nat.mod_lt _ (Nat.pos_of_ne_zero (by omega))
  simp only [edgeUpd, edgeVals]
  set v1 := cfg.cage_vertices.getD j (0, 0)
  set v2 := cfg.cage_vertices.getD ((j + 1) % cfg.cage_vertice_number) (0, 0)
  split
  · by_cases h : i = off + cfg.cage_vertice_number + j
    · rw [h, updB_self, updB_self]
    · rw [updB_ne h, updB_ne h]; exact hag i hlo hhi
  · have hread1 : updB buf1 (off + cfg.cage_vertice_number + j)
        (cEdgeG M (v2.1 - v1.1) (v2.2 - v1.2) (v1.1 - (x : K)) (v1.2 - (y : K))) (off + j)
        = updB buf2 (off + cfg.cage_vertice_number + j)
        (cEdgeG M (v2.1 - v1.1) (v2.2 - v1.2) (v1.1 - (x : K)) (v1.2 - (y : K))) (off + j) := by
      rw [updB_ne (by omega), updB_ne (by omega)]
      exact hag (off + j) (by omega) (by omega)
    by_cases h3 : i = off + (j + 1) % cfg.cage_vertice_number
    · rw [h3, updB_self, updB_self]
      by_cases h23 : off + (j + 1) % cfg.cage_vertice_number = off + j
      · rw [h23, updB_self, updB_self, hread1]
      · rw [updB_ne h23, updB_ne h23, updB_ne (by omega), updB_ne (by omega),
          hag (off + (j + 1) % cfg.cage_vertice_number) (by omega) (by omega)]
    · rw [updB_ne h3, updB_ne h3]
      by_cases h2 : i = off + j
      · rw [h2, updB_self, updB_self, hread1]
      · rw [updB_ne h2, updB_ne h2]
        by_cases h1 : i = off + cfg.cage_vertice_number + j
        · rw [h1, updB_self, updB_self]
        · rw [updB_ne h1, updB_ne h1]; exact hag i hlo hhi

/-- Two buffers agreeing on a pixel's 2N-slot block produce the same
block after the whole per-pixel body. -/
theorem writePixel_congrOn {M : CMath K} (cfg : GimpCageConfig K)
    (x y : ℤ) (off : ℕ) {buf1 buf2 : Buf K}
    (hag : ∀ i, off ≤ i → i < off + 2 * cfg.cage_vertice_number →
      buf1 i = buf2 i) :
    ∀ i, off ≤ i → i < off + 2 * cfg.cage_vertice_number →
      writePixel M cfg x y off buf1 i = writePixel M cfg x y off buf2 i := by
  rw [writePixel, writePixel]
  have hmem : ∀ j ∈ List.range cfg.cage_vertice_number,
      j < cfg.cage_vertice_number := by
    intro j hjl; exact List.mem_range.mp hjl
  revert hmem
  generalize List.range cfg.cage_vertice_number = l
  intro hmem
  induction l generalizing buf1 buf2 with
  | nil => exact hag
  | cons j l ih =>
      rw [List.foldl_cons, List.foldl_cons]
      exact ih
        (edgeUpd_congrOn cfg x y off (hmem j (List.mem_cons_self j l)) hag)
        (fun e he => hmem e (List.mem_cons_of_mem j he))

theorem mod_div_succ_wrap {w j : ℕ} (hw : 0 < w) (h : j % w + 1 = w) :
    (j + 1) % w = 0 ∧ (j + 1) / w = j / w + 1 := by
  have hdm := Nat.div_add_mod j w
  have hdist : w * (j / w + 1) = w * (j / w) + w := by ring
  have hj1 : j + 1 = w * (j / w + 1) := by omega
  constructor
  · rw [hj1]; exact Nat.mul_mod_right w _
  · rw [hj1]; exact Nat.mul_div_cancel_left _ hw

theorem mod_div_succ_nowrap {w j : ℕ} (hw : 0 < w) (h : j % w + 1 ≠ w) :
    (j + 1) % w = j % w + 1 ∧ (j + 1) / w = j / w := by
  have hlt : j % w < w := Nat.mod_lt _ hw
  have hlt1 : j % w + 1 < w := by omega
  have hdm := Nat.div_add_mod j w
  have hj1 : j + 1 = w * (j / w) + (j % w + 1) := by omega
  constructor
  · rw [hj1, Nat.mul_add_mod, Nat.mod_eq_of_lt hlt1]
  · rw [hj1, Nat.mul_add_div hw, Nat.div_eq_of_lt hlt1, Nat.add_zero]

/-- Characterization of the pixel loop: starting at logical pixel index
`j` (row-major, coordinates `(rX + j % w, rY + j / w)`, cursor `2N * j`),
the slots of pixel `j + k` end up holding exactly the per-pixel body's
output for that pixel's own coordinates applied to the original buffer
when the pixel is inside the cage, and the untouched original values when
it is outside. -/
theorem processPixels_slots {M : CMath K} (cfg : GimpCageConfig K)
    (w : ℕ) (hw : 0 < w) (rX rY : ℤ) :
    ∀ (k n j : ℕ) (buf : Buf K), k < n →
    ∀ d, d < 2 * cfg.cage_vertice_number →
    processPixels M cfg rX ((w : ℕ) : ℤ) n (rX + ((j % w : ℕ) : ℤ))
      (rY + ((j / w : ℕ) : ℤ)) (2 * cfg.cage_vertice_number * j) buf
      (2 * cfg.cage_vertice_number * (j + k) + d)
    = if cfg.point_inside (rX + (((j + k) % w : ℕ) : ℤ))
          (rY + (((j + k) / w : ℕ) : ℤ))
      then writePixel M cfg (rX + (((j + k) % w : ℕ) : ℤ))
          (rY + (((j + k) / w : ℕ) : ℤ))
          (2 * cfg.cage_vertice_number * (j + k)) buf
          (2 * cfg.cage_vertice_number * (j + k) + d)
      else buf (2 * cfg.cage_vertice_number * (j + k) + d) := by
  intro k
  induction k with
  | zero =>
      intro n j buf hk d hd
      cases n with
      | zero => omega
      | succ m =>
          rw [processPixels]
          simp only [Nat.add_zero]
          have hlt : 2 * cfg.cage_vertice_number * j + d
              < 2 * cfg.cage_vertice_number * j
                + 2 * cfg.cage_vertice_number := by omega
          split
          · rw [processPixels_below cfg rX ((w : ℕ) : ℤ) m rX
              (rY + ((j / w : ℕ) : ℤ) + 1) _ _ _ hlt]
            split <;> rfl
          · rw [processPixels_below cfg rX ((w : ℕ) : ℤ) m
              (rX + ((j % w : ℕ) : ℤ) + 1) (rY + ((j / w : ℕ) : ℤ)) _ _ _ hlt]
            split <;> rfl
  | succ k ih =>
      intro n j buf hk d hd
      cases n with
      | zero => omega
      | succ m =>
          rw [processPixels]
          have hmod : j % w < w := Nat.mod_lt _ hw
          by_cases hwrap : j % w + 1 = w
          · obtain ⟨h1, h2⟩ := mod_div_succ_wrap hw hwrap
            have hcond : rX + ((j % w : ℕ) : ℤ) + 1 ≥ rX + ((w : ℕ) : ℤ) := by
              have : ((j % w : ℕ) : ℤ) + 1 = ((w : ℕ) : ℤ) := by
                exact_mod_cast hwrap
              omega
            rw [if_pos hcond]
            have hih := ih m (j + 1)
              (if cfg.point_inside (rX + ((j % w : ℕ) : ℤ))
                  (rY + ((j / w : ℕ) : ℤ))
               then writePixel M cfg (rX + ((j % w : ℕ) : ℤ))
                  (rY + ((j / w : ℕ) : ℤ))
                  (2 * cfg.cage_vertice_number * j) buf
               else buf) (by omega) d hd
            rw [h1, h2] at hih
            rw [show j + 1 + k = j + (k + 1) from by omega] at hih
            rw [show ((0 : ℕ) : ℤ) = 0 from rfl] at hih
            rw [show 2 * cfg.cage_vertice_number * (j + 1)
                = 2 * cfg.cage_vertice_number * j
                  + 2 * cfg.cage_vertice_number from by ring] at hih
            rw [show rY + (((j / w + 1 : ℕ)) : ℤ)
                = rY + ((j / w : ℕ) : ℤ) + 1 from by push_cast; ring] at hih
            rw [show rX + (0 : ℤ) = rX from by ring] at hih
            rw [hih]
            have hagree : ∀ i,
                2 * cfg.cage_vertice_number * (j + (k + 1)) ≤ i →
                i < 2 * cfg.cage_vertice_number * (j + (k + 1))
                  + 2 * cfg.cage_vertice_number →
                (if cfg.point_inside (rX + ((j % w : ℕ) : ℤ))
                    (rY + ((j / w : ℕ) : ℤ))
                 then writePixel M cfg (rX + ((j % w : ℕ) : ℤ))
                    (rY + ((j / w : ℕ) : ℤ))
                    (2 * cfg.cage_vertice_number * j) buf
                 else buf) i = buf i := by
              intro i hilo hihi
              split
              · exact writePixel_outside cfg _ _ _ buf
                  (Or.inr (by nlinarith [Nat.le_refl 0]))
              · rfl
            split
            · exact writePixel_congrOn cfg _ _ _ hagree _
                (by omega) (by omega)
            · exact hagree _ (by omega) (by omega)
          · obtain ⟨h1, h2⟩ := mod_div_succ_nowrap hw hwrap
            have hcond : ¬ (rX + ((j % w : ℕ) : ℤ) + 1 ≥ rX + ((w : ℕ) : ℤ)) := by
              have : ((j % w : ℕ) : ℤ) + 1 < ((w : ℕ) : ℤ) := by
                exact_mod_cast Nat.lt_of_le_of_ne (Nat.succ_le_of_lt hmod) hwrap
              omega
            rw [if_neg hcond]
            have hih := ih m (j + 1)
              (if cfg.point_inside (rX + ((j % w : ℕ) : ℤ))
                  (rY + ((j / w : ℕ) : ℤ))
               then writePixel M cfg (rX + ((j % w : ℕ) : ℤ))
                  (rY + ((j / w : ℕ) : ℤ))
                  (2 * cfg.cage_vertice_number * j) buf
               else buf) (by omega) d hd
            rw [h1, h2] at hih
            rw [show j + 1 + k = j + (k + 1) from by omega] at hih
            rw [show 2 * cfg.cage_vertice_number * (j + 1)
                = 2 * cfg.cage_vertice_number * j
                  + 2 * cfg.cage_vertice_number from by ring] at hih
            rw [show rX + (((j % w + 1 : ℕ)) : ℤ)
                = rX + ((j % w : ℕ) : ℤ) + 1 from by push_cast; ring] at hih
            rw [hih]
            have hagree : ∀ i,
                2 * cfg.cage_vertice_number * (j + (k + 1)) ≤ i →
                i < 2 * cfg.cage_vertice_number * (j + (k + 1))
                  + 2 * cfg.cage_vertice_number →
                (if cfg.point_inside (rX + ((j % w : ℕ) : ℤ))
                    (rY + ((j / w : ℕ) : ℤ))
                 then writePixel M cfg (rX + ((j % w : ℕ) : ℤ))
                    (rY + ((j / w : ℕ) : ℤ))
                    (2 * cfg.cage_vertice_number * j) buf
                 else buf) i = buf i := by
              intro i hilo hihi
              split
              · exact writePixel_outside cfg _ _ _ buf
                  (Or.inr (by nlinarith [Nat.le_refl 0]))
              · rfl
            split
            · exact writePixel_congrOn cfg _ _ _ hagree _
                (by omega) (by omega)
            · exact hagree _ (by omega) (by omega)

/-- Extract the finite part of a `GF` value (0 for non-finite values). -/
def finPart : GF K → K
  | GF.fin a => a
  | _ => 0

/-- The contribution edge `j` adds to vertex slot `j` at pixel `(x, y)`:
zero when the pixel is on the edge's line, the first vertex term
otherwise. -/
def edgeA (M : CMath K) (cfg : GimpCageConfig K) (x y : ℤ) (j : ℕ) : K :=
  let v1 := cfg.cage_vertices.getD j (0, 0)
  let v2 := cfg.cage_vertices.getD ((j + 1) % cfg.cage_vertice_number) (0, 0)
  if is_on_straight M v1 v2 ((x : K), (y : K)) then 0
  else finPart (cVertA M (v2.1 - v1.1) (v2.2 - v1.2) (v1.1 - (x : K)) (v1.2 - (y : K)))

/-- The contribution edge `j` subtracts from vertex slot `(j+1) % N` at
pixel `(x, y)`. -/
def edgeB (M : CMath K) (cfg : GimpCageConfig K) (x y : ℤ) (j : ℕ) : K :=
  let v1 := cfg.cage_vertices.getD j (0, 0)
  let v2 := cfg.cage_vertices.getD ((j + 1) % cfg.cage_vertice_number) (0, 0)
  if is_on_straight M v1 v2 ((x : K), (y : K)) then 0
  else finPart (cVertB M (v2.1 - v1.1) (v2.2 - v1.2) (v1.1 - (x : K)) (v1.2 - (y : K)))

theorem succMod_ne {N e : ℕ} (hN : 2 ≤ N) (he : e < N) : (e + 1) % N ≠ e := by
  rcases Nat.lt_or_ge (e + 1) N with h | h
  · rw [Nat.mod_eq_of_lt h]; omega
  · have : e + 1 = N := by omega
    rw [this, Nat.mod_self]; omega

/-- A per-edge update leaves every slot other than its three own slots
unchanged. -/
theorem edgeUpd_untouched {M : CMath K} (cfg : GimpCageConfig K)
    (x y : ℤ) (off : ℕ) (buf : Buf K) (e : ℕ) {t : ℕ}
    (h1 : t ≠ off + cfg.cage_vertice_number + e) (h2 : t ≠ off + e)
    (h3 : t ≠ off + (e + 1) % cfg.cage_vertice_number) :
    edgeUpd M cfg x y off buf e t = buf t := by
  simp only [edgeUpd, edgeVals]
  split
  · exact updB_ne h1
  · rw [updB_ne h3, updB_ne h2, updB_ne h1]

theorem foldl_edumpd_untouched {M : CMath K} (cfg : GimpCageConfig K)
    (x y : ℤ) (off : ℕ) {t : ℕ} :
    ∀ (l : List ℕ) (buf : Buf K),
    (∀ e ∈ l, t ≠ off + cfg.cage_vertice_number + e ∧ t ≠ off + e ∧
      t ≠ off + (e + 1) % cfg.cage_vertice_number) →
    l.foldl (edgeUpd M cfg x y off) buf t = buf t := by
  intro l
  induction l with
  | nil => intro buf _; rfl
  | cons e l ih =>
      intro buf hl
      obtain ⟨h1, h2, h3⟩ := hl e (List.mem_cons_self e l)
      rw [List.foldl_cons, ih _ (fun f hf => hl f (List.mem_cons_of_mem e hf)),
        edgeUpd_untouched cfg x y off buf e h1 h2 h3]

/-- The per-edge update of edge `e` at its own first vertex slot: the slot
accumulates `edgeA` on top of its previous (finite) value. -/
theorem edgeUpd_A {M : CMath K} (hM : CMathOK M) (cfg : GimpCageConfig K)
    (x y : ℤ) (off : ℕ) {buf : Buf K} {e : ℕ} {v : K}
    (hN : 2 ≤ cfg.cage_vertice_number) (he : e < cfg.cage_vertice_number)
    (hv : buf (off + e) = GF.fin v) :
    edgeUpd M cfg x y off buf e (off + e)
      = GF.fin (v + edgeA M cfg x y e) := by
  have hsucc := succMod_ne hN he
  simp only [edgeUpd, edgeVals, edgeA]
  set v1 := cfg.cage_vertices.getD e (0, 0)
  set v2 := cfg.cage_vertices.getD ((e + 1) % cfg.cage_vertice_number) (0, 0)
  split
  · rw [updB_ne (by omega), hv]
    norm_num
  · rename_i hst
    rw [Bool.not_eq_true] at hst
    obtain ⟨a, ha⟩ := cVertA_of_BA_ne hM (BA_ne_of_not_straight hst)
    rw [updB_ne (by omega), updB_self, updB_ne (by omega), hv, ha]
    simp [finPart]

/-- The per-edge update of edge `e` at its second vertex slot
`(e+1) % N`: the slot has `edgeB` subtracted from its previous (finite)
value. -/
theorem edgeUpd_B {M : CMath K} (hM : CMathOK M) (cfg : GimpCageConfig K)
    (x y : ℤ) (off : ℕ) {buf : Buf K} {e : ℕ} {v : K}
    (hN : 2 ≤ cfg.cage_vertice_number) (he : e < cfg.cage_vertice_number)
    (hv : buf (off + (e + 1) % cfg.cage_vertice_number) = GF.fin v) :
    edgeUpd M cfg x y off buf e (off + (e + 1) % cfg.cage_vertice_number)
      = GF.fin (v - edgeB M cfg x y e) := by
  have hsucc := succMod_ne hN he
  have hlt : (e + 1) % cfg.cage_vertice_number < cfg.cage_vertice_number :=
    Nat.mod_lt _ (by omega)
  simp only [edgeUpd, edgeVals, edgeB]
  set v1 := cfg.cage_vertices.getD e (0, 0)
  set v2 := cfg.cage_vertices.getD ((e + 1) % cfg.cage_vertice_number) (0, 0)
  split
  · rw [updB_ne (by omega), hv]
    norm_num
  · rename_i hst
    rw [Bool.not_eq_true] at hst
    obtain ⟨b, hb⟩ := cVertB_of_BA_ne hM (BA_ne_of_not_straight hst)
    rw [updB_self, updB_ne (by omega), updB_ne (by omega), hv, hb]
    simp [finPart]

/-- The per-edge update of edge `e` at its own edge slot `N + e`: the slot
is overwritten with the guarded edge coefficient, whatever the buffer
held. -/
theorem edgeUpd_E {M : CMath K} (cfg : GimpCageConfig K)
    (x y : ℤ) (off : ℕ) (buf : Buf K) {e : ℕ}
    (he : e < cfg.cage_vertice_number) :
    edgeUpd M cfg x y off buf e (off + cfg.cage_vertice_number + e)
      = cEdgeG M
          ((cfg.cage_vertices.getD ((e + 1) % cfg.cage_vertice_number) (0, 0)).1
            - (cfg.cage_vertices.getD e (0, 0)).1)
          ((cfg.cage_vertices.getD ((e + 1) % cfg.cage_vertice_number) (0, 0)).2
            - (cfg.cage_vertices.getD e (0, 0)).2)
          ((cfg.cage_vertices.getD e (0, 0)).1 - (x : K))
          ((cfg.cage_vertices.getD e (0, 0)).2 - (y : K)) := by
  have hlt : (e + 1) % cfg.cage_vertice_number < cfg.cage_vertice_number :=
    Nat.mod_lt _ (by omega)
  simp only [edgeUpd, edgeVals]
  split
  · exact updB_self _ _ _
  · rw [updB_ne (by omega), updB_ne (by omega), updB_self]

theorem range'_split (s a b : ℕ) :
    List.range' s (a + b) = List.range' s a ++ List.range' (s + a) b := by
  rw [Nat.add_comm a b]
  have h := List.range'_append s a b 1
  rw [one_mul] at h
  exact h.symm

theorem range'_split0 (a b : ℕ) :
    List.range' 0 (a + b) = List.range' 0 a ++ List.range' a b := by
  simpa using range'_split 0 a b

theorem range'_decomp3 (a b c : ℕ) :
    List.range' 0 (a + b + c)
      = (List.range' 0 a ++ List.range' a b) ++ List.range' (a + b) c := by
  rw [range'_split0 (a + b) c, range'_split0 a b]

/-- The final value of vertex slot `j` after the per-edge loop: the
initial (finite) buffer value plus the `A` contribution of edge `j` minus
the `B` contribution of edge `(j + N - 1) % N` (the edge whose second
endpoint is vertex `j`); each contribution is zero when the pixel is
collinear with that edge. -/
theorem writePixel_vertex_slot {M : CMath K} (hM : CMathOK M)
    (cfg : GimpCageConfig K) (x y : ℤ) (off : ℕ) {buf : Buf K} {j : ℕ}
    {v : K} (hN : 3 ≤ cfg.cage_vertice_number)
    (hj : j < cfg.cage_vertice_number) (hv : buf (off + j) = GF.fin v) :
    writePixel M cfg x y off buf (off + j)
      = GF.fin (v + edgeA M cfg x y j
          - edgeB M cfg x y
              ((j + cfg.cage_vertice_number - 1) % cfg.cage_vertice_number)) := by
  have hN2 : 2 ≤ cfg.cage_vertice_number := by omega
  rw [writePixel, List.range_eq_range' cfg.cage_vertice_number]
  rcases Nat.eq_zero_or_pos j with hj0 | hjpos
  · -- j = 0: the A write (edge 0) comes first, the B write (edge N-1) last
    subst hj0
    have hjm : (0 + cfg.cage_vertice_number - 1) % cfg.cage_vertice_number
        = 1 + (cfg.cage_vertice_number - 2) := by
      rw [Nat.zero_add, Nat.mod_eq_of_lt (by omega)]
      omega
    have hdec : List.range' 0 cfg.cage_vertice_number
        = (List.range' 0 1 ++ List.range' 1 (cfg.cage_vertice_number - 2))
          ++ List.range' (1 + (cfg.cage_vertice_number - 2)) 1 := by
      conv_lhs => rw [show cfg.cage_vertice_number
        = 1 + (cfg.cage_vertice_number - 2) + 1 from by omega]
      exact range'_decomp3 1 (cfg.cage_vertice_number - 2) 1
    rw [hdec, List.foldl_append, List.foldl_append, List.range'_one,
      List.range'_one, List.foldl_cons, List.foldl_nil, List.foldl_cons,
      List.foldl_nil]
    have hstep1 : edgeUpd M cfg x y off buf 0 (off + 0)
        = GF.fin (v + edgeA M cfg x y 0) :=
      edgeUpd_A hM cfg x y off hN2 (by omega) hv
    have hmid : (List.range' 1 (cfg.cage_vertice_number - 2)).foldl
        (edgeUpd M cfg x y off) (edgeUpd M cfg x y off buf 0) (off + 0)
        = GF.fin (v + edgeA M cfg x y 0) := by
      rw [foldl_edumpd_untouched cfg x y off _ _ ?_, hstep1]
      intro e he
      obtain ⟨he1, he2⟩ := List.mem_range'_1.mp he
      have hmod : (e + 1) % cfg.cage_vertice_number = e + 1 :=
        Nat.mod_eq_of_lt (by omega)
      refine ⟨by omega, by omega, ?_⟩
      rw [hmod]; omega
    have hlast : (1 + (cfg.cage_vertice_number - 2) + 1)
        % cfg.cage_vertice_number = 0 := by
      rw [show 1 + (cfg.cage_vertice_number - 2) + 1
        = cfg.cage_vertice_number from by omega, Nat.mod_self]
    have hvmid : ((List.range' 1 (cfg.cage_vertice_number - 2)).foldl
        (edgeUpd M cfg x y off) (edgeUpd M cfg x y off buf 0))
        (off + (1 + (cfg.cage_vertice_number - 2) + 1)
          % cfg.cage_vertice_number)
        = GF.fin (v + edgeA M cfg x y 0) := by
      rw [hlast]; exact hmid
    have hstep2 := edgeUpd_B hM cfg x y off hN2
      (e := 1 + (cfg.cage_vertice_number - 2)) (by omega) hvmid
    rw [hlast] at hstep2
    rw [hstep2, hjm]
  · -- j >= 1: the B write (edge j-1) comes first, the A write (edge j) next
    have hjm : (j + cfg.cage_vertice_number - 1) % cfg.cage_vertice_number
        = j - 1 := by
      rw [show j + cfg.cage_vertice_number - 1
        = cfg.cage_vertice_number + (j - 1) from by omega,
        Nat.add_mod_left, Nat.mod_eq_of_lt (by omega)]
    have hdec : List.range' 0 cfg.cage_vertice_number
        = (List.range' 0 (j - 1) ++ List.range' (j - 1) 2)
          ++ List.range' (j + 1) (cfg.cage_vertice_number - j - 1) := by
      conv_lhs => rw [show cfg.cage_vertice_number
        = (j - 1) + 2 + (cfg.cage_vertice_number - j - 1) from by omega]
      rw [range'_decomp3 (j - 1) 2 (cfg.cage_vertice_number - j - 1),
        show j - 1 + 2 = j + 1 from by omega]
    have hr2 : List.range' (j - 1) 2 = [j - 1, j] := by
      rw [show (2 : ℕ) = 1 + 1 from rfl, List.range'_succ]
      rw [show j - 1 + 1 = j from by omega, List.range'_one]
    rw [hdec, List.foldl_append, List.foldl_append, hr2, List.foldl_cons,
      List.foldl_cons, List.foldl_nil]
    have hpre : (List.range' 0 (j - 1)).foldl (edgeUpd M cfg x y off) buf
        (off + j) = GF.fin v := by
      rw [foldl_edumpd_untouched cfg x y off _ _ ?_, hv]
      intro e he
      obtain ⟨he1, he2⟩ := List.mem_range'_1.mp he
      have hmod : (e + 1) % cfg.cage_vertice_number = e + 1 :=
        Nat.mod_eq_of_lt (by omega)
      refine ⟨by omega, by omega, ?_⟩
      rw [hmod]; omega
    have hmodj : (j - 1 + 1) % cfg.cage_vertice_number = j := by
      rw [show j - 1 + 1 = j from by omega, Nat.mod_eq_of_lt hj]
    have hvpre : ((List.range' 0 (j - 1)).foldl (edgeUpd M cfg x y off) buf)
        (off + (j - 1 + 1) % cfg.cage_vertice_number) = GF.fin v := by
      rw [hmodj]; exact hpre
    have hstep1 := edgeUpd_B hM cfg x y off hN2
      (e := j - 1) (by omega) hvpre
    rw [hmodj] at hstep1
    have hstep2 := edgeUpd_A hM cfg x y off hN2 hj hstep1
    have hsuf : (List.range' (j + 1) (cfg.cage_vertice_number - j - 1)).foldl
        (edgeUpd M cfg x y off)
        (edgeUpd M cfg x y off
          (edgeUpd M cfg x y off
            ((List.range' 0 (j - 1)).foldl (edgeUpd M cfg x y off) buf)
            (j - 1)) j)
        (off + j)
        = GF.fin (v - edgeB M cfg x y (j - 1) + edgeA M cfg x y j) := by
      rw [foldl_edumpd_untouched cfg x y off _ _ ?_, hstep2]
      intro e he
      obtain ⟨he1, he2⟩ := List.mem_range'_1.mp he
      refine ⟨by omega, by omega, ?_⟩
      rcases Nat.lt_or_ge (e + 1) cfg.cage_vertice_number with hlt | hge
      · rw [Nat.mod_eq_of_lt hlt]; omega
      · rw [show e + 1 = cfg.cage_vertice_number from by omega,
          Nat.mod_self]
        omega
    rw [hsuf, hjm]
    congr 1
    ring

/-- The final value of edge slot `N + j` after the per-edge loop: the
guarded edge coefficient of edge `j`, written exactly once and
independent of the buffer contents. -/
theorem writePixel_edge_slot {M : CMath K} (cfg : GimpCageConfig K)
    (x y : ℤ) (off : ℕ) (buf : Buf K) {j : ℕ}
    (hj : j < cfg.cage_vertice_number) :
    writePixel M cfg x y off buf (off + cfg.cage_vertice_number + j)
      = cEdgeG M
          ((cfg.cage_vertices.getD ((j + 1) % cfg.cage_vertice_number) (0, 0)).1
            - (cfg.cage_vertices.getD j (0, 0)).1)
          ((cfg.cage_vertices.getD ((j + 1) % cfg.cage_vertice_number) (0, 0)).2
            - (cfg.cage_vertices.getD j (0, 0)).2)
          ((cfg.cage_vertices.getD j (0, 0)).1 - (x : K))
          ((cfg.cage_vertices.getD j (0, 0)).2 - (y : K)) := by
  rw [writePixel, List.range_eq_range' cfg.cage_vertice_number]
  have hdec : List.range' 0 cfg.cage_vertice_number
      = (List.range' 0 j ++ List.range' j 1)
        ++ List.range' (j + 1) (cfg.cage_vertice_number - j - 1) := by
    conv_lhs => rw [show cfg.cage_vertice_number
      = j + 1 + (cfg.cage_vertice_number - j - 1) from by omega]
    exact range'_decomp3 j 1 (cfg.cage_vertice_number - j - 1)
  rw [hdec, List.foldl_append, List.foldl_append, List.range'_one,
    List.foldl_cons, List.foldl_nil]
  rw [foldl_edumpd_untouched cfg x y off _ _ ?_]
  · rw [edgeUpd_E cfg x y off _ hj]
  · intro e he
    obtain ⟨he1, he2⟩ := List.mem_range'_1.mp he
    have hmod : (e + 1) % cfg.cage_vertice_number < cfg.cage_vertice_number :=
      Nat.mod_lt _ (by omega)
    exact ⟨by omega, by omega, by omega⟩

end Cage

/-!
The item tree (app/core/gimpitemtree.c).  C strings (`gchar *`) are
embedded as lists of byte values (`List ℕ`); `35` is the byte of the
character `#`, `45` of `-`, `43` of `+`, and `48`-`57` are the digits.
Items are identified by numeric ids; the tree state holds the root
container, the per-branch child containers, the parent links, every item
object's current name, the `name_hash` index, and a counter of undo
records pushed through the opaque undo callbacks.
-/

namespace ItemTree

/-- The byte of the character `#`. -/
def hashCh : ℕ := 35

/-- Decimal digit bytes. -/
def isDigitCh (c : ℕ) : Bool := decide (48 ≤ c ∧ c ≤ 57)

/-- The bytes accepted by C `isspace` (the whitespace `atoi` skips). -/
def isSpaceCh (c : ℕ) : Bool :=
  decide (c = 32 ∨ c = 9 ∨ c = 10 ∨ c = 11 ∨ c = 12 ∨ c = 13)

/-- The byte of the decimal digit `d`. -/
def digitCh (d : ℕ) : ℕ := 48 + d

/-- Fuel-driven most-significant-first decimal rendering of a natural
number (the digit part of `printf "%d"`). -/
def natReprAux : ℕ → ℕ → List ℕ
  | 0, _ => []
  | fuel + 1, n =>
      if n < 10 then [digitCh n]
      else natReprAux fuel (n / 10) ++ [digitCh (n % 10)]

/-- Decimal rendering of a natural number. -/
def natRepr (n : ℕ) : List ℕ := natReprAux (n + 1) n

/-- `printf "%d"`: canonical decimal rendering of an integer, with a
leading `-` for negative values. -/
def intRepr (m : ℤ) : List ℕ :=
  if m < 0 then 45 :: natRepr (-m).toNat else natRepr m.toNat

/-- The value of a digit run, most significant digit first. -/
def digitsVal (l : List ℕ) : ℕ := l.foldl (fun a c => 10 * a + (c - 48)) 0

/-- C `atoi`: skip leading whitespace, accept one optional sign, read the
longest digit run, ignore the rest; no digits gives 0. -/
def atoi (s : List ℕ) : ℤ :=
  let s1 := s.dropWhile isSpaceCh
  match s1 with
  | [] => 0
  | c :: r =>
      if c = 45 then -(digitsVal (r.takeWhile isDigitCh) : ℤ)
      else if c = 43 then (digitsVal (r.takeWhile isDigitCh) : ℤ)
      else (digitsVal (s1.takeWhile isDigitCh) : ℤ)

/-- `strrchr (name, '#')` as a split: `some (stem, suffix)` when the name
contains a `#`, where `suffix` is everything after the LAST `#` and `stem`
everything before it. -/
def lastHashSplit : List ℕ → Option (List ℕ × List ℕ)
  | [] => none
  | c :: rest =>
      match lastHashSplit rest with
      | some (pre, suf) => some (c :: pre, suf)
      | none => if c = hashCh then some ([], rest) else none

/-- One iteration body of the uniquification loop of
`gimp_item_tree_uniquefy_name`: find the last `#`; `atoi` the suffix; if
printing the parsed number back (`"%d"`) gives exactly the suffix, strip
the suffix and keep the number, else keep the whole name and use 0; then
increment the number and append `#<number>`. -/
def uniquefyStep (name : List ℕ) : List ℕ :=
  match lastHashSplit name with
  | none => name ++ hashCh :: intRepr (0 + 1)
  | some (stem, suf) =>
      let number := atoi suf
      if intRepr number = suf then stem ++ hashCh :: intRepr (number + 1)
      else name ++ hashCh :: intRepr (0 + 1)

/-- The `name_hash` of the tree: an association from names to item ids
(`GHashTable` with string keys). -/
abbrev NameHash := List (List ℕ × ℕ)

/-- `g_hash_table_lookup`. -/
def hashLookup : NameHash → List ℕ → Option ℕ
  | [], _ => none
  | (k, v) :: rest, name => if k = name then some v else hashLookup rest name

/-- `g_hash_table_remove`. -/
def hashRemove (h : NameHash) (name : List ℕ) : NameHash :=
  h.filter (fun kv => decide (kv.1 ≠ name))

/-- `g_hash_table_insert` (replaces the entry if the key is present). -/
def hashInsert (h : NameHash) (name : List ℕ) (v : ℕ) : NameHash :=
  (name, v) :: hashRemove h name

/-- The collision loop of `gimp_item_tree_uniquefy_name`, with explicit
fuel: while the current name is a key of the index, apply the step. -/
def uniquefyLoop (h : NameHash) : List ℕ → ℕ → Option (List ℕ)
  | _, 0 => none
  | name, fuel + 1 =>
      if (hashLookup h name).isSome then uniquefyLoop h (uniquefyStep name) fuel
      else some name

/-- The uniquified name.  Fuel `h.length + 2` always suffices (the
termination theorem below); the fallback value is never reached. -/
def uniquefyName (h : NameHash) (name : List ℕ) : List ℕ :=
  (uniquefyLoop h name (h.length + 2)).getD name

/-- The item-tree state.  `root` is the root container (ordered item ids),
`childrenT` gives each branch item its ordered child container, `parentF`
the parent links, `names` the current name of every item object, `nameHash`
the name index and `undoCount` the number of undo records pushed. -/
structure TreeState where
  root : List ℕ
  childrenT : List (ℕ × List ℕ)
  parentF : List (ℕ × ℕ)
  names : List (ℕ × List ℕ)
  nameHash : NameHash
  undoCount : ℕ
deriving DecidableEq

/-- `gimp_object_get_name`. -/
def getName (s : TreeState) (item : ℕ) : List ℕ :=
  match s.names.find? (fun kv => kv.1 = item) with
  | some kv => kv.2
  | none => []

/-- `gimp_object_set_name` / `gimp_object_take_name`. -/
def setName (s : TreeState) (item : ℕ) (n : List ℕ) : TreeState :=
  { s with names := (item, n) :: s.names.filter (fun kv => decide (kv.1 ≠ item)) }

/-- `gimp_item_get_parent`: the parent item or null. -/
def parentOf (s : TreeState) (item : ℕ) : Option ℕ :=
  (s.parentF.find? (fun kv => kv.1 = item)).map (fun kv => kv.2)

/-- The ordered children of a branch item. -/
def childrenOf (s : TreeState) (p : ℕ) : List ℕ :=
  match s.childrenT.find? (fun kv => kv.1 = p) with
  | some kv => kv.2
  | none => []

/-- `gimp_item_get_container`: the container a (attached) item lives in,
identified by its optional parent: the parent's children or the tree's
root container. -/
def containerList (s : TreeState) : Option ℕ → List ℕ
  | some p => childrenOf s p
  | none => s.root

/-- Replace the contents of a container. -/
def setContainer (s : TreeState) : Option ℕ → List ℕ → TreeState
  | some p, l =>
      { s with childrenT :=
          (p, l) :: s.childrenT.filter (fun kv => decide (kv.1 ≠ p)) }
  | none, l => { s with root := l }

/-- `gimp_viewable_set_parent`. -/
def setParent (s : TreeState) (item : ℕ) : Option ℕ → TreeState
  | some p =>
      { s with parentF :=
          (item, p) :: s.parentF.filter (fun kv => decide (kv.1 ≠ item)) }
  | none =>
      { s with parentF := s.parentF.filter (fun kv => decide (kv.1 ≠ item)) }

/-- Insert at a clamped position (`gimp_container_insert`; per the spec the
position is clamped to `[0, n_children]`). -/
def insertAt (l : List ℕ) (item : ℕ) (pos : ℕ) : List ℕ :=
  l.take pos ++ item :: l.drop pos

/-- `gimp_item_get_index`: position of an item in its container. -/
def indexIn (l : List ℕ) (item : ℕ) : ℕ := l.indexOf item

/-- An item is attached when some container of the tree holds it. -/
def attached (s : TreeState) (item : ℕ) : Bool :=
  s.root.contains item || s.childrenT.any (fun kv => kv.2.contains item)

/-- `gimp_item_tree_uniquefy_name`: with a proposed name, first remove the
item's current name from the index and set the proposal; then run the
collision loop; finally insert the item under its final name. -/
def uniquefy_name (s : TreeState) (item : ℕ) (newName : Option (List ℕ)) :
    TreeState :=
  let s1 := match newName with
    | some nn => setName { s with nameHash := hashRemove s.nameHash (getName s item) } item nn
    | none => s
  let final := uniquefyName s1.nameHash (getName s1 item)
  let s2 := setName s1 item final
  { s2 with nameHash := hashInsert s2.nameHash final item }

/-- `gimp_item_tree_add_item`: uniquefy the item's name, set the parent
when one is given, and insert into the chosen container. -/
def add_item (s : TreeState) (item : ℕ) (parent : Option ℕ) (pos : ℕ) :
    TreeState :=
  let s1 := uniquefy_name s item none
  match parent with
  | none => { s1 with root := insertAt s1.root item pos }
  | some p =>
      let s2 := setParent s1 item (some p)
      setContainer s2 (some p) (insertAt (childrenOf s2 p) item pos)

/-- `gimp_item_tree_remove_item`: record container and index, remove the
item from its container, clear the parent link, and derive the returned
new-active item when the caller passed null.  (The source does NOT remove
the item's name from `name_hash`.) -/
def remove_item (s : TreeState) (item : ℕ) (newActive : Option ℕ) :
    TreeState × Option ℕ :=
  let parent := parentOf s item
  let cont := containerList s parent
  let index := indexIn cont item
  let contAfter := cont.erase item
  let s1 := setContainer s parent contAfter
  let s2 := match parent with
    | some _ => setParent s1 item none
    | none => s1
  let chosen := match newActive with
    | some a => some a
    | none =>
        if 0 < contAfter.length then
          some (contAfter.getD (min index (contAfter.length - 1)) 0)
        else match parent with
          | some p => some p
          | none => none
  (s2, chosen)

/-- `gimp_item_tree_reorder_item`: clamp the index against the destination
child count (excluding the item itself when staying in the same
container), and when the container or index actually changes, optionally
push one undo record and either move across containers or reorder in
place. -/
def reorder_item (s : TreeState) (item : ℕ) (newParent : Option ℕ)
    (newIndex : ℤ) (pushUndo : Bool) : TreeState :=
  let curParent := parentOf s item
  let container := containerList s curParent
  let newContainer := containerList s newParent
  let nItems0 := newContainer.length
  let nItems := if newParent = curParent then nItems0 - 1 else nItems0
  let ci : ℕ := (max 0 (min newIndex (nItems : ℤ))).toNat
  if newParent ≠ curParent ∨ ci ≠ indexIn container item then
    let s1 := if pushUndo then { s with undoCount := s.undoCount + 1 } else s
    if newParent ≠ curParent then
      let s2 := setContainer s1 curParent (container.erase item)
      let s3 := setParent s2 item newParent
      setContainer s3 newParent (insertAt (containerList s3 newParent) item ci)
    else
      setContainer s1 curParent (insertAt (container.erase item) item ci)
  else s

/-- `gimp_item_tree_rename_item`: when the proposed name differs from the
current one, optionally push one undo record, then uniquefy with the
proposal. -/
def rename_item (s : TreeState) (item : ℕ) (newName : List ℕ)
    (pushUndo : Bool) : TreeState :=
  if newName ≠ getName s item then
    let s1 := if pushUndo then { s with undoCount := s.undoCount + 1 } else s
    uniquefy_name s1 item (some newName)
  else s

end ItemTree

namespace ItemTree

theorem natReprAux_irrel :
    ∀ (n f1 f2 : ℕ), n < f1 → n < f2 → natReprAux f1 n = natReprAux f2 n := by
  intro n
  induction n using Nat.strong_induction_on with
  | _ n ih =>
      intro f1 f2 h1 h2
      cases f1 with
      | zero => omega
      | succ f1 =>
          cases f2 with
          | zero => omega
          | succ f2 =>
              simp only [natReprAux]
              by_cases h : n < 10
              · simp [h]
              · have hd : n / 10 < n := Nat.div_lt_self (by omega) (by omega)
                simp only [h, if_false]
                exact congrArg (fun l => l ++ [digitCh (n % 10)])
                  (ih (n / 10) hd f1 f2 (by omega) (by omega))

theorem natRepr_lt (n : ℕ) (h : n < 10) : natRepr n = [digitCh n] := by
  simp [natRepr, natReprAux, h]

theorem natRepr_ge (n : ℕ) (h : ¬ n < 10) :
    natRepr n = natRepr (n / 10) ++ [digitCh (n % 10)] := by
  have hd : n / 10 < n := Nat.div_lt_self (by omega) (by omega)
  rw [natRepr, natRepr]
  conv_lhs => rw [natReprAux]
  simp only [h, if_false]
  rw [natReprAux_irrel (n / 10) n (n / 10 + 1) (by omega) (by omega)]

theorem natRepr_digits (n : ℕ) : ∀ c ∈ natRepr n, 48 ≤ c ∧ c ≤ 57 := by
  induction n using Nat.strong_induction_on with
  | _ n ih =>
      by_cases h : n < 10
      · rw [natRepr_lt n h]
        intro c hc
        rw [List.mem_singleton] at hc
        subst hc
        unfold digitCh
        omega
      · rw [natRepr_ge n h]
        intro c hc
        rcases List.mem_append.mp hc with hc | hc
        · exact ih (n / 10) (Nat.div_lt_self (by omega) (by omega)) c hc
        · rw [List.mem_singleton] at hc
          subst hc
          have h2 : n % 10 < 10 := Nat.mod_lt _ (by omega)
          unfold digitCh
          omega

theorem natRepr_ne_nil (n : ℕ) : natRepr n ≠ [] := by
  by_cases h : n < 10
  · rw [natRepr_lt n h]; simp
  · rw [natRepr_ge n h]; simp

theorem digitsVal_append (l : List ℕ) (d : ℕ) :
    digitsVal (l ++ [d]) = 10 * digitsVal l + (d - 48) := by
  simp [digitsVal, List.foldl_append]

theorem digitsVal_natRepr (n : ℕ) : digitsVal (natRepr n) = n := by
  induction n using Nat.strong_induction_on with
  | _ n ih =>
      by_cases h : n < 10
      · rw [natRepr_lt n h]
        show 10 * 0 + (digitCh n - 48) = n
        unfold digitCh
        omega
      · rw [natRepr_ge n h, digitsVal_append,
          ih (n / 10) (Nat.div_lt_self (by omega) (by omega))]
        have h3 : digitCh (n % 10) - 48 = n % 10 := by unfold digitCh; omega
        rw [h3]
        omega

theorem takeWhile_all {p : ℕ → Bool} :
    ∀ {l : List ℕ}, (∀ c ∈ l, p c = true) → l.takeWhile p = l := by
  intro l
  induction l with
  | nil => intro _; rfl
  | cons c cs ih =>
      intro hall
      rw [List.takeWhile_cons, hall c (List.mem_cons_self c cs)]
      simp [ih (fun d hd => hall d (List.mem_cons_of_mem c hd))]

theorem atoi_natRepr (n : ℕ) : atoi (natRepr n) = (n : ℤ) := by
  rcases hrep : natRepr n with _ | ⟨c, cs⟩
  · exact absurd hrep (natRepr_ne_nil n)
  · have hc : 48 ≤ c ∧ c ≤ 57 :=
      natRepr_digits n c (by rw [hrep]; exact List.mem_cons_self c cs)
    have hall : ∀ d ∈ c :: cs, isDigitCh d = true := by
      intro d hd
      have := natRepr_digits n d (by rw [hrep]; exact hd)
      simp [isDigitCh]
      omega
    have hds : isSpaceCh c = false := by
      simp only [isSpaceCh, decide_eq_false_iff_not]
      omega
    have hgoal : digitsVal ((c :: cs).takeWhile isDigitCh) = n := by
      rw [takeWhile_all hall, ← hrep, digitsVal_natRepr]
    simp only [atoi, List.dropWhile_cons, hds, Bool.false_eq_true, if_false]
    rw [if_neg (by omega), if_neg (by omega), hgoal]

theorem atoi_intRepr (m : ℤ) : atoi (intRepr m) = m := by
  rw [intRepr]
  by_cases h : m < 0
  · rw [if_pos h]
    have hall : ∀ d ∈ natRepr (-m).toNat, isDigitCh d = true := by
      intro d hd
      have h9 := natRepr_digits (-m).toNat d hd
      simp only [isDigitCh, decide_eq_true_eq]
      omega
    have h45 : isSpaceCh (45 : ℕ) = false := by rfl
    have hgoal : digitsVal ((natRepr (-m).toNat).takeWhile isDigitCh)
        = (-m).toNat := by
      rw [takeWhile_all hall, digitsVal_natRepr]
    simp only [atoi, List.dropWhile_cons, h45, Bool.false_eq_true, if_false]
    norm_num [hgoal]
    omega
  · rw [if_neg h, atoi_natRepr]
    omega

theorem intRepr_inj {a b : ℤ} (h : intRepr a = intRepr b) : a = b := by
  have := atoi_intRepr a
  rw [h, atoi_intRepr] at this
  omega

theorem intRepr_no_hash (m : ℤ) : hashCh ∉ intRepr m := by
  intro hmem
  rw [intRepr] at hmem
  have hdig : ∀ c ∈ natRepr m.toNat, 48 ≤ c ∧ c ≤ 57 := natRepr_digits _
  have hdig2 : ∀ c ∈ natRepr (-m).toNat, 48 ≤ c ∧ c ≤ 57 := natRepr_digits _
  by_cases h : m < 0
  · rw [if_pos h] at hmem
    rcases List.mem_cons.mp hmem with h1 | h1
    · simp [hashCh] at h1
    · have := hdig2 _ h1
      simp [hashCh] at this
  · rw [if_neg h] at hmem
    have := hdig _ hmem
    simp [hashCh] at this

theorem lastHashSplit_no_hash : ∀ {l : List ℕ}, hashCh ∉ l → lastHashSplit l = none := by
  intro l
  induction l with
  | nil => intro _; rfl
  | cons c cs ih =>
      intro hl
      rw [lastHashSplit, ih (fun hc => hl (List.mem_cons_of_mem c hc))]
      rw [if_neg (fun hc => hl (by rw [← hc]; exact List.mem_cons_self c cs))]

theorem lastHashSplit_append (stem suf : List ℕ) (hs : hashCh ∉ suf) :
    lastHashSplit (stem ++ hashCh :: suf) = some (stem, suf) := by
  induction stem with
  | nil =>
      rw [List.nil_append, lastHashSplit, lastHashSplit_no_hash hs, if_pos rfl]
  | cons c cs ih =>
      rw [List.cons_append, lastHashSplit, ih]

/-- One loop iteration on a name already of the canonical shape
`stem#<m>` strips the canonical suffix and increments the number. -/
theorem uniquefyStep_canonical (stem : List ℕ) (m : ℤ) :
    uniquefyStep (stem ++ hashCh :: intRepr m)
      = stem ++ hashCh :: intRepr (m + 1) := by
  rw [uniquefyStep, lastHashSplit_append stem _ (intRepr_no_hash m)]
  simp [atoi_intRepr]

/-- Every loop iteration produces a name of the shape `stem#<m>` with the
suffix in canonical decimal form. -/
theorem uniquefyStep_shape (name : List ℕ) :
    ∃ stem m, uniquefyStep name = stem ++ hashCh :: intRepr m := by
  rcases h : lastHashSplit name with _ | ⟨stem, suf⟩
  · exact ⟨name, 0 + 1, by rw [uniquefyStep, h]⟩
  · by_cases hc : intRepr (atoi suf) = suf
    · exact ⟨stem, atoi suf + 1, by rw [uniquefyStep, h]; simp [hc]⟩
    · exact ⟨name, 0 + 1, by rw [uniquefyStep, h]; simp [hc]⟩

theorem uniquefyStep_iterate (stem : List ℕ) (m : ℤ) (k : ℕ) :
    uniquefyStep^[k] (stem ++ hashCh :: intRepr m)
      = stem ++ hashCh :: intRepr (m + k) := by
  induction k generalizing m with
  | zero => simp
  | succ k ih =>
      have hcast : m + ((k + 1 : ℕ) : ℤ) = m + 1 + (k : ℤ) := by
        push_cast; ring
      rw [Function.iterate_succ_apply, uniquefyStep_canonical, ih, hcast]

theorem hashLookup_mem {h : NameHash} {name : List ℕ}
    (hl : (hashLookup h name).isSome = true) : name ∈ h.map Prod.fst := by
  induction h with
  | nil => simp [hashLookup] at hl
  | cons kv rest ih =>
      rw [hashLookup] at hl
      by_cases he : kv.1 = name
      · simp [he]
      · rw [if_neg he] at hl
        exact List.mem_cons_of_mem _ (ih hl)

theorem uniquefyLoop_isSome_of {h : NameHash} :
    ∀ (fuel : ℕ) (name : List ℕ),
    (∃ k < fuel, hashLookup h (uniquefyStep^[k] name) = none) →
    (uniquefyLoop h name fuel).isSome = true := by
  intro fuel
  induction fuel with
  | zero =>
      intro name hex
      obtain ⟨k, hk, _⟩ := hex
      omega
  | succ fuel ih =>
      intro name hex
      obtain ⟨k, hk, hnone⟩ := hex
      rw [uniquefyLoop]
      by_cases h0 : (hashLookup h name).isSome
      · rw [if_pos h0]
        cases k with
        | zero =>
            rw [Function.iterate_zero_apply] at hnone
            rw [hnone] at h0
            simp at h0
        | succ k =>
            refine ih (uniquefyStep name) ⟨k, by omega, ?_⟩
            rw [← Function.iterate_succ_apply]
            exact hnone
      · rw [if_neg h0]
        rfl

/-- Termination of the collision loop: fuel `|index| + 2` always
suffices.  After the first iteration the name has the canonical shape
`stem#<k>`, and each further iteration increments `k` while the index is
unchanged, so the candidate names are pairwise distinct; if none of the
first `|index| + 1` of them were free, the index would need more than
`|index|` distinct keys. -/
theorem uniquefyLoop_terminates (h : NameHash) (name : List ℕ) :
    (uniquefyLoop h name (h.length + 2)).isSome = true := by
  apply uniquefyLoop_isSome_of
  by_contra hc
  push_neg at hc
  obtain ⟨stem, m, hsm⟩ := uniquefyStep_shape name
  have hiter : ∀ k : ℕ, uniquefyStep^[k + 1] name
      = stem ++ hashCh :: intRepr (m + k) := by
    intro k
    rw [Function.iterate_succ_apply, hsm, uniquefyStep_iterate]
  have hmem : ∀ k ≤ h.length,
      (stem ++ hashCh :: intRepr (m + k)) ∈ h.map Prod.fst := by
    intro k hk
    have := hc (k + 1) (by omega)
    rw [hiter k] at this
    exact hashLookup_mem (by
      rcases ho : hashLookup h (stem ++ hashCh :: intRepr (m + k)) with _ | v
      · exact absurd ho this
      · rfl)
  have hinj : Function.Injective
      (fun k : ℕ => stem ++ hashCh :: intRepr (m + k)) := by
    intro k1 k2 hk
    simp only at hk
    have := List.append_cancel_left hk
    have := List.tail_eq_of_cons_eq this
    have := intRepr_inj this
    omega
  have hcard : ((Finset.range (h.length + 1)).image
      (fun k : ℕ => stem ++ hashCh :: intRepr (m + k))).card
      = h.length + 1 := by
    rw [Finset.card_image_of_injective _ hinj, Finset.card_range]
  have hsub : (Finset.range (h.length + 1)).image
      (fun k : ℕ => stem ++ hashCh :: intRepr (m + k))
      ⊆ (h.map Prod.fst).toFinset := by
    intro nm hnm
    rw [Finset.mem_image] at hnm
    obtain ⟨k, hk, rfl⟩ := hnm
    rw [List.mem_toFinset]
    exact hmem k (by simpa using Nat.lt_succ_iff.mp (Finset.mem_range.mp hk))
  have hle := Finset.card_le_card hsub
  have hfin : (h.map Prod.fst).toFinset.card ≤ h.length := by
    have := (h.map Prod.fst).toFinset_card_le
    simpa using this
  omega

end ItemTree

namespace ItemTree

theorem find_filter_ne {A : Type} (l : List (ℕ × A)) (p q : ℕ) (h : p ≠ q) :
    (l.filter (fun kv => decide (kv.1 ≠ q))).find? (fun kv => kv.1 = p)
      = l.find? (fun kv => kv.1 = p) := by
  induction l with
  | nil => rfl
  | cons kv rest ih =>
      rw [List.filter_cons]
      by_cases hq : kv.1 = q
      · have hpred : (decide (kv.1 ≠ q)) = false := by simp [hq]
        rw [hpred]
        simp only [Bool.false_eq_true, if_false]
        rw [ih, List.find?_cons_of_neg _ (by simp [hq]; omega)]
      · have hpred : (decide (kv.1 ≠ q)) = true := by simp [hq]
        rw [hpred]
        simp only [if_true]
        by_cases hp : kv.1 = p
        · rw [List.find?_cons_of_pos _ (by simp [hp]),
            List.find?_cons_of_pos _ (by simp [hp])]
        · rw [List.find?_cons_of_neg _ (by simp [hp]),
            List.find?_cons_of_neg _ (by simp [hp]), ih]

theorem containerList_setContainer_self (s : TreeState) (k : Option ℕ)
    (l : List ℕ) : containerList (setContainer s k l) k = l := by
  cases k with
  | none => rfl
  | some p =>
      simp [containerList, setContainer, childrenOf, List.find?_cons]

theorem containerList_setContainer_ne (s : TreeState) {k1 k2 : Option ℕ}
    (l : List ℕ) (h : k1 ≠ k2) :
    containerList (setContainer s k1 l) k2 = containerList s k2 := by
  cases k1 with
  | none =>
      cases k2 with
      | none => exact absurd rfl h
      | some p => rfl
  | some q =>
      cases k2 with
      | none => rfl
      | some p =>
          have hpq : p ≠ q := fun he => h (by rw [he])
          simp only [containerList, setContainer, childrenOf]
          rw [List.find?_cons]
          have : (decide ((q, l).1 = p)) = false := by simp; omega
          rw [this, find_filter_ne s.childrenT p q hpq]

theorem containerList_setParent (s : TreeState) (item : ℕ) (po k : Option ℕ) :
    containerList (setParent s item po) k = containerList s k := by
  cases po <;> cases k <;> rfl

theorem undoCount_setContainer (s : TreeState) (k : Option ℕ) (l : List ℕ) :
    (setContainer s k l).undoCount = s.undoCount := by
  cases k <;> rfl

theorem undoCount_setParent (s : TreeState) (item : ℕ) (po : Option ℕ) :
    (setParent s item po).undoCount = s.undoCount := by
  cases po <;> rfl

theorem indexIn_insertAt {l : List ℕ} {a : ℕ} (ha : a ∉ l) {i : ℕ}
    (hi : i ≤ l.length) : indexIn (insertAt l a i) a = i := by
  induction l generalizing i with
  | nil =>
      have : i = 0 := by simpa using hi
      subst this
      simp [insertAt, indexIn]
  | cons b bs ih =>
      cases i with
      | zero => simp [insertAt, indexIn]
      | succ i =>
          have hab : b ≠ a := fun he => ha (by rw [he]; exact List.mem_cons_self a bs)
          have := ih (fun hm => ha (List.mem_cons_of_mem b hm)) (by simpa using hi)
          simp only [insertAt, List.take_succ_cons, List.drop_succ_cons,
            List.cons_append, indexIn] at *
          rw [List.indexOf_cons_ne _ (by omega)]
          omega

end ItemTree

/-!
The claims.  Witness fixtures: a concrete rational math bundle satisfying
`CMathOK`, concrete cage configurations and buffers.
-/

open Cage ItemTree

/-- A concrete `CMath` instance over the rationals satisfying `CMathOK`
(the kernel theorems hold for every contract-satisfying implementation of
the external math library, so any such instance works as a witness). -/
def MstubQ : CMath ℚ :=
  ⟨fun x => if x ≤ 0 then 0 else 1, fun _ => 0, fun _ _ => 0, 3⟩

theorem MstubQ_ok : CMathOK MstubQ := by
  refine ⟨by norm_num [MstubQ], fun x hx => ?_, by norm_num [MstubQ]⟩
  show (if x ≤ 0 then (0 : ℚ) else 1) > 0
  rw [if_neg (not_le.mpr hx)]
  norm_num

/-- A triangular cage over ℚ whose point test reports every pixel inside. -/
def cfgTri : GimpCageConfig ℚ := ⟨3, [(0, 0), (2, 0), (1, 1)], fun _ _ => true, rfl⟩

/-- A degenerate cage whose three vertices lie on the x-axis, with a point
test reporting every pixel inside: every edge is collinear with every
pixel on the axis, so no vertex contribution is ever written. -/
def cfgLine : GimpCageConfig ℚ := ⟨3, [(0, 0), (1, 0), (2, 0)], fun _ _ => true, rfl⟩

/-- An all-zero initial buffer. -/
def bufZero : Buf ℚ := fun _ => GF.fin 0

/-- An initial buffer whose slot 0 (a vertex-coefficient slot) holds 37. -/
def init37 : Buf ℚ := fun i => if i = 0 then GF.fin 37 else GF.fin 0

/-- Claim C1: for every pixel inside the cage (and every cage with at
least 3 vertices), the kernel writes only finite values: whenever the
edge-coefficient formula would produce NaN the kernel substitutes 0, and
starting from a buffer with no non-finite entries, no NaN or Inf ever
appears in the output buffer (the vertex contributions are only
accumulated when the collinearity guard admits them, and are then finite). -/
theorem c1_no_nonfinite_in_output {K : Type} [LinearOrderedField K]
    (M : CMath K) (hM : CMathOK M) (cfg : GimpCageConfig K)
    (hN : 3 ≤ cfg.cage_vertice_number) (rX rW : ℤ) (n : ℕ) (x y : ℤ)
    (off : ℕ) (buf : Buf K)
    (hbuf : ∀ i, GF.isFinite (buf i) = true) :
    ∀ i, GF.isFinite (processPixels M cfg rX rW n x y off buf i) = true :=
  processPixels_allFinite hM cfg rX rW n x y off buf hbuf

/-- Witness for C1 at a concrete input: the rational math stub, the
triangular cage, a 5-by-5 tile and the all-zero initial buffer. -/
theorem c1_no_nonfinite_in_output_witness :
    CMathOK MstubQ ∧ 3 ≤ cfgTri.cage_vertice_number ∧
    (∀ i, GF.isFinite (bufZero i) = true) ∧
    ∀ i, GF.isFinite (processPixels MstubQ cfgTri 0 5 25 0 0 0 bufZero i) = true :=
  ⟨MstubQ_ok, by norm_num [cfgTri], fun i => rfl,
    c1_no_nonfinite_in_output MstubQ MstubQ_ok cfgTri (by norm_num [cfgTri])
      0 5 25 0 0 0 bufZero (fun i => rfl)⟩

/-- Counterexample to claim C2 as stated: the kernel does NOT initialize
the vertex-coefficient slots to zero before the per-edge loop; it
accumulates onto whatever the buffer iterator provided.  Two runs on the
same inside pixel of the same cage, differing only in the (all-finite)
initial buffer contents, give different values in vertex slot 0, so the
vertex coefficients do not depend only on the per-edge contributions. -/
theorem c2_counterexample :
    (∀ i, GF.isFinite (init37 i) = true) ∧
    processPixels MstubQ cfgLine 5 1 1 5 0 0 init37 0 = GF.fin 37 ∧
    processPixels MstubQ cfgLine 5 1 1 5 0 0 bufZero 0 = GF.fin 0 ∧
    processPixels MstubQ cfgLine 5 1 1 5 0 0 init37 0
      ≠ processPixels MstubQ cfgLine 5 1 1 5 0 0 bufZero 0 := by
  refine ⟨fun i => by unfold init37; split <;> rfl, ?_, ?_, ?_⟩
  · norm_num [processPixels, writePixel, List.range_succ, edgeUpd, edgeVals,
      updB, cfgLine, MstubQ, is_on_straight, gimp_vector2_normalize, init37]
  · norm_num [processPixels, writePixel, List.range_succ, edgeUpd, edgeVals,
      updB, cfgLine, MstubQ, is_on_straight, gimp_vector2_normalize, bufZero]
  · rw [show processPixels MstubQ cfgLine 5 1 1 5 0 0 init37 0
        = GF.fin 37 from by
        norm_num [processPixels, writePixel, List.range_succ, edgeUpd,
          edgeVals, updB, cfgLine, MstubQ, is_on_straight,
          gimp_vector2_normalize, init37],
      show processPixels MstubQ cfgLine 5 1 1 5 0 0 bufZero 0
        = GF.fin 0 from by
        norm_num [processPixels, writePixel, List.range_succ, edgeUpd,
          edgeVals, updB, cfgLine, MstubQ, is_on_straight,
          gimp_vector2_normalize, bufZero]]
    intro hcontra
    have : (37 : ℚ) = 0 := GF.fin.inj hcontra
    norm_num at this

/-- Claim C2 (amended): the kernel does not zero the vertex slots; each
vertex slot `j` of an inside pixel ends at its iterator-provided initial
value plus the contribution of edge `j` minus the contribution of edge
`(j + N - 1) % N` (so it equals the per-edge sum exactly when the initial
contents are zero), while each edge slot `N + j` is written by direct
assignment exactly once per edge, independent of the prior buffer
contents. -/
theorem c2_amended {K : Type} [LinearOrderedField K] (M : CMath K)
    (hM : CMathOK M) (cfg : GimpCageConfig K) (x y : ℤ) (off : ℕ)
    (buf : Buf K) (j : ℕ) (v : K) (hN : 3 ≤ cfg.cage_vertice_number)
    (hj : j < cfg.cage_vertice_number) (hv : buf (off + j) = GF.fin v) :
    writePixel M cfg x y off buf (off + j)
      = GF.fin (v + edgeA M cfg x y j
          - edgeB M cfg x y
              ((j + cfg.cage_vertice_number - 1) % cfg.cage_vertice_number)) ∧
    (∀ buf2 : Buf K, writePixel M cfg x y off buf2
        (off + cfg.cage_vertice_number + j)
      = cEdgeG M
          ((cfg.cage_vertices.getD ((j + 1) % cfg.cage_vertice_number) (0, 0)).1
            - (cfg.cage_vertices.getD j (0, 0)).1)
          ((cfg.cage_vertices.getD ((j + 1) % cfg.cage_vertice_number) (0, 0)).2
            - (cfg.cage_vertices.getD j (0, 0)).2)
          ((cfg.cage_vertices.getD j (0, 0)).1 - (x : K))
          ((cfg.cage_vertices.getD j (0, 0)).2 - (y : K))) :=
  ⟨writePixel_vertex_slot hM cfg x y off hN hj hv,
   fun buf2 => writePixel_edge_slot cfg x y off buf2 hj⟩

/-- Witness for the amended C2 at a concrete input: vertex slot 0 of the
collinear cage accumulates on top of the initial value 37. -/
theorem c2_amended_witness :
    CMathOK MstubQ ∧ 3 ≤ cfgLine.cage_vertice_number ∧
    (0 : ℕ) < cfgLine.cage_vertice_number ∧ init37 (0 + 0) = GF.fin 37 ∧
    (writePixel MstubQ cfgLine 5 0 0 init37 (0 + 0)
      = GF.fin (37 + edgeA MstubQ cfgLine 5 0 0
          - edgeB MstubQ cfgLine 5 0
              ((0 + cfgLine.cage_vertice_number - 1) % cfgLine.cage_vertice_number)) ∧
     (∀ buf2 : Buf ℚ, writePixel MstubQ cfgLine 5 0 0 buf2
        (0 + cfgLine.cage_vertice_number + 0)
      = cEdgeG MstubQ
          ((cfgLine.cage_vertices.getD ((0 + 1) % cfgLine.cage_vertice_number) (0, 0)).1
            - (cfgLine.cage_vertices.getD 0 (0, 0)).1)
          ((cfgLine.cage_vertices.getD ((0 + 1) % cfgLine.cage_vertice_number) (0, 0)).2
            - (cfgLine.cage_vertices.getD 0 (0, 0)).2)
          ((cfgLine.cage_vertices.getD 0 (0, 0)).1 - ((5 : ℤ) : ℚ))
          ((cfgLine.cage_vertices.getD 0 (0, 0)).2 - ((0 : ℤ) : ℚ)))) :=
  ⟨MstubQ_ok, by norm_num [cfgLine], by norm_num [cfgLine], rfl,
    c2_amended MstubQ MstubQ_ok cfgLine 5 0 0 init37 0 37
      (by norm_num [cfgLine]) (by norm_num [cfgLine]) rfl⟩

/-- Claim C3 (code bug): the source computes the Babl output format from
`2 * config->cage_vertice_number` BEFORE its `if (! config) return FALSE;`
test, so with an absent configuration `process` dereferences a null
pointer (modelled: no defined result) instead of returning the failure
flag; with a configuration present it always fills the buffer over the
roi and returns TRUE — no numeric condition produces a failure return. -/
theorem c3_process_null_deref {K : Type} [LinearOrderedField K]
    (M : CMath K) (roi : GeglRectangle) (buf : Buf K) :
    cage_coef_calc_process (Option.none) M roi buf = Option.none ∧
    (∀ cfg : GimpCageConfig K,
      cage_coef_calc_process (some cfg) M roi buf
        = some (true,
            processPixels M cfg roi.x roi.width
              (roi.width * roi.height).toNat roi.x roi.y 0 buf)) :=
  ⟨rfl, fun cfg => rfl⟩

/-- Claim C4: when the pixel is collinear with edge `j` (the
collinearity test `is_on_straight` reports true, i.e. the determinant of
the normalized directions is within 1e-9 of zero), the per-edge body for
edge `j` contributes nothing to any vertex slot — it leaves every slot
except the edge slot `N + j` unchanged — while the edge slot is still
written with the NaN-guarded edge coefficient (`cEdgeG`, which substitutes
0 for NaN), and the written value is finite. -/
theorem c4_collinear_edge {K : Type} [LinearOrderedField K] (M : CMath K)
    (hM : CMathOK M) (cfg : GimpCageConfig K) (x y : ℤ) (off j : ℕ)
    (buf : Buf K) (hin : cfg.point_inside x y = true)
    (hst : is_on_straight M (cfg.cage_vertices.getD j (0, 0))
        (cfg.cage_vertices.getD ((j + 1) % cfg.cage_vertice_number) (0, 0))
        ((x : K), (y : K)) = true) :
    (∀ t, t ≠ off + cfg.cage_vertice_number + j →
      edgeUpd M cfg x y off buf j t = buf t) ∧
    edgeUpd M cfg x y off buf j (off + cfg.cage_vertice_number + j)
      = cEdgeG M
          ((cfg.cage_vertices.getD ((j + 1) % cfg.cage_vertice_number) (0, 0)).1
            - (cfg.cage_vertices.getD j (0, 0)).1)
          ((cfg.cage_vertices.getD ((j + 1) % cfg.cage_vertice_number) (0, 0)).2
            - (cfg.cage_vertices.getD j (0, 0)).2)
          ((cfg.cage_vertices.getD j (0, 0)).1 - (x : K))
          ((cfg.cage_vertices.getD j (0, 0)).2 - (y : K)) ∧
    GF.isFinite (edgeUpd M cfg x y off buf j
        (off + cfg.cage_vertice_number + j)) = true := by
  have hbody : edgeUpd M cfg x y off buf j
      = updB buf (off + cfg.cage_vertice_number + j)
          (cEdgeG M
            ((cfg.cage_vertices.getD ((j + 1) % cfg.cage_vertice_number) (0, 0)).1
              - (cfg.cage_vertices.getD j (0, 0)).1)
            ((cfg.cage_vertices.getD ((j + 1) % cfg.cage_vertice_number) (0, 0)).2
              - (cfg.cage_vertices.getD j (0, 0)).2)
            ((cfg.cage_vertices.getD j (0, 0)).1 - (x : K))
            ((cfg.cage_vertices.getD j (0, 0)).2 - (y : K))) := by
    simp only [edgeUpd, edgeVals, hst, if_true]
  rw [hbody]
  exact ⟨fun t ht => updB_ne ht, updB_self _ _ _,
    by rw [updB_self]; exact cEdgeG_finite hM _ _ _ _⟩

/-- Witness for C4 at a concrete input: pixel (1, 0) lies on edge 0 of
the triangular cage (from (0,0) to (2,0)). -/
theorem c4_collinear_edge_witness :
    CMathOK MstubQ ∧ cfgTri.point_inside 1 0 = true ∧
    is_on_straight MstubQ (cfgTri.cage_vertices.getD 0 (0, 0))
      (cfgTri.cage_vertices.getD ((0 + 1) % cfgTri.cage_vertice_number) (0, 0))
      (((1 : ℤ) : ℚ), ((0 : ℤ) : ℚ)) = true ∧
    ((∀ t, t ≠ 0 + cfgTri.cage_vertice_number + 0 →
      edgeUpd MstubQ cfgTri 1 0 0 bufZero 0 t = bufZero t) ∧
     edgeUpd MstubQ cfgTri 1 0 0 bufZero 0 (0 + cfgTri.cage_vertice_number + 0)
      = cEdgeG MstubQ
          ((cfgTri.cage_vertices.getD ((0 + 1) % cfgTri.cage_vertice_number) (0, 0)).1
            - (cfgTri.cage_vertices.getD 0 (0, 0)).1)
          ((cfgTri.cage_vertices.getD ((0 + 1) % cfgTri.cage_vertice_number) (0, 0)).2
            - (cfgTri.cage_vertices.getD 0 (0, 0)).2)
          ((cfgTri.cage_vertices.getD 0 (0, 0)).1 - ((1 : ℤ) : ℚ))
          ((cfgTri.cage_vertices.getD 0 (0, 0)).2 - ((0 : ℤ) : ℚ)) ∧
     GF.isFinite (edgeUpd MstubQ cfgTri 1 0 0 bufZero 0
        (0 + cfgTri.cage_vertice_number + 0)) = true) := by
  have hst : is_on_straight MstubQ (cfgTri.cage_vertices.getD 0 (0, 0))
      (cfgTri.cage_vertices.getD ((0 + 1) % cfgTri.cage_vertice_number) (0, 0))
      (((1 : ℤ) : ℚ), ((0 : ℤ) : ℚ)) = true := by
    norm_num [cfgTri, is_on_straight, gimp_vector2_normalize, MstubQ]
  exact ⟨MstubQ_ok, rfl, hst,
    c4_collinear_edge MstubQ MstubQ_ok cfgTri 1 0 0 0 bufZero rfl hst⟩

/-- Claim C5: for every pixel of the tile, its 2N-float block starts at
cursor offset `2N * k` where `k` is the pixel's row-major index; an
outside pixel's block keeps exactly the iterator-provided values (the
kernel writes nothing there), and an inside pixel's block holds the
per-pixel body's output for that pixel's own row-major coordinates — the
cursor advances by 2N per pixel, so every subsequent pixel lands in its
correct slots. -/
theorem c5_outside_untouched {K : Type} [LinearOrderedField K]
    (M : CMath K) (cfg : GimpCageConfig K) (w : ℕ) (hw : 0 < w)
    (rX rY : ℤ) (n k d : ℕ) (buf : Buf K) (hk : k < n)
    (hd : d < 2 * cfg.cage_vertice_number) :
    processPixels M cfg rX ((w : ℕ) : ℤ) n rX rY 0 buf
      (2 * cfg.cage_vertice_number * k + d)
    = if cfg.point_inside (rX + ((k % w : ℕ) : ℤ)) (rY + ((k / w : ℕ) : ℤ))
      then writePixel M cfg (rX + ((k % w : ℕ) : ℤ)) (rY + ((k / w : ℕ) : ℤ))
          (2 * cfg.cage_vertice_number * k) buf
          (2 * cfg.cage_vertice_number * k + d)
      else buf (2 * cfg.cage_vertice_number * k + d) := by
  have h0 := @processPixels_slots K _ M cfg w hw rX rY k n 0 buf hk d hd
  norm_num at h0
  exact h0

/-- A cage configuration over ℚ whose point test accepts only the pixels
of the column `x = 0`. -/
def cfgCol : GimpCageConfig ℚ :=
  ⟨3, [(0, 0), (2, 0), (1, 1)], fun x _ => decide (x = 0), rfl⟩

/-- Witness for C5 at a concrete input: in a 2-wide tile, pixel index 1
has coordinates (1, 0), lies outside `cfgCol`, and its block is left at
the iterator-provided values. -/
theorem c5_outside_untouched_witness :
    (0 : ℕ) < 2 ∧ (1 : ℕ) < 2 ∧ (0 : ℕ) < 2 * cfgCol.cage_vertice_number ∧
    (processPixels MstubQ cfgCol 0 ((2 : ℕ) : ℤ) 2 0 0 0 init37
      (2 * cfgCol.cage_vertice_number * 1 + 0)
    = if cfgCol.point_inside (0 + ((1 % 2 : ℕ) : ℤ)) (0 + ((1 / 2 : ℕ) : ℤ))
      then writePixel MstubQ cfgCol (0 + ((1 % 2 : ℕ) : ℤ))
          (0 + ((1 / 2 : ℕ) : ℤ)) (2 * cfgCol.cage_vertice_number * 1) init37
          (2 * cfgCol.cage_vertice_number * 1 + 0)
      else init37 (2 * cfgCol.cage_vertice_number * 1 + 0)) :=
  ⟨by norm_num, by norm_num, by norm_num [cfgCol],
    c5_outside_untouched MstubQ cfgCol 2 (by norm_num) 0 0 2 1 0 init37
      (by norm_num) (by norm_num [cfgCol])⟩

/-- A tree state with a single item object (id 1, named "A"), nothing
attached yet. -/
def s6 : TreeState := ⟨[], [], [], [(1, [65])], [], 0⟩

/-- Claim C6 (code bug): `gimp_item_tree_remove_item` does not delete the
removed item's name from `name_hash`.  Concretely: adding item 1 (named
"A") to an empty tree puts "A" in the index and attaches the item; after
removing it again nothing is attached and both containers are empty, yet
the index still maps "A" to item 1 — the index does not contain exactly
the attached items. -/
theorem c6_remove_leaves_stale_name :
    attached (add_item s6 1 none 0) 1 = true ∧
    getName (add_item s6 1 none 0) 1 = [65] ∧
    hashLookup (add_item s6 1 none 0).nameHash [65] = some 1 ∧
    attached ((remove_item (add_item s6 1 none 0) 1 none).1) 1 = false ∧
    ((remove_item (add_item s6 1 none 0) 1 none).1).root = [] ∧
    ((remove_item (add_item s6 1 none 0) 1 none).1).childrenT = [] ∧
    hashLookup ((remove_item (add_item s6 1 none 0) 1 none).1).nameHash [65]
      = some 1 := by
  decide

/-- A tree state with two item objects both named "x#-3"
(`[120, 35, 45, 51]`), nothing attached yet. -/
def s7 : TreeState := ⟨[], [], [], [(1, [120, 35, 45, 51]), (2, [120, 35, 45, 51])], [], 0⟩

/-- Counterexample to claim C7 as stated: the suffix check accepts any
integer whose canonical decimal form matches, including negative ones
(`atoi ("-3") = -3` and `"%d"` of -3 is exactly `"-3"`).  Adding a second
item named "x#-3" therefore yields "x#-2" (the suffix is stripped and
-3 is incremented), not the "x#-3#1" the claim predicts for an atomic
stem. -/
theorem c7_counterexample :
    getName (add_item (add_item s7 1 none 0) 2 none 1) 2 = [120, 35, 45, 50] ∧
    ([120, 35, 45, 50] : List ℕ) ≠ [120, 35, 45, 51, 35, 49] := by
  decide

/-- A tree state with two item objects named "x#007", nothing attached. -/
def s7b : TreeState :=
  ⟨[], [], [], [(1, [120, 35, 48, 48, 55]), (2, [120, 35, 48, 48, 55])], [], 0⟩

/-- Claim C7 (amended): the last `#`-suffix is stripped and adopted as
the base number exactly when the suffix is the canonical decimal form of
the integer `atoi` parses from it — this includes negative canonical
suffixes such as `"-3"`.  Suffixes like `"007"` fail the canonical check
and leave the name an atomic stem: a second "x#007" becomes "x#007#1",
while a second "x#-3" becomes "x#-2". -/
theorem c7_amended :
    (∀ (stem suf : List ℕ), hashCh ∉ suf →
      uniquefyStep (stem ++ hashCh :: suf)
        = if intRepr (atoi suf) = suf
          then stem ++ hashCh :: intRepr (atoi suf + 1)
          else (stem ++ hashCh :: suf) ++ hashCh :: intRepr 1) ∧
    getName (add_item (add_item s7b 1 none 0) 2 none 1) 2
      = [120, 35, 48, 48, 55, 35, 49] ∧
    getName (add_item (add_item s7 1 none 0) 2 none 1) 2
      = [120, 35, 45, 50] := by
  refine ⟨fun stem suf hs => ?_, by decide, by decide⟩
  rw [uniquefyStep, lastHashSplit_append stem suf hs]
  show (if intRepr (atoi suf) = suf
        then stem ++ hashCh :: intRepr (atoi suf + 1)
        else (stem ++ hashCh :: suf) ++ hashCh :: intRepr (0 + 1)) = _
  by_cases hc : intRepr (atoi suf) = suf
  · rw [if_pos hc, if_pos hc]
  · rw [if_neg hc, if_neg hc]
    norm_num

/-- Witness for the amended C7: the general suffix rule applied to the
concrete name "x#007" (stem "x", suffix "007", no `#` in the suffix). -/
theorem c7_amended_witness :
    hashCh ∉ ([48, 48, 55] : List ℕ) ∧
    uniquefyStep ([120] ++ hashCh :: [48, 48, 55])
      = if intRepr (atoi [48, 48, 55]) = [48, 48, 55]
        then [120] ++ hashCh :: intRepr (atoi [48, 48, 55] + 1)
        else ([120] ++ hashCh :: [48, 48, 55]) ++ hashCh :: intRepr 1 :=
  ⟨by decide, c7_amended.1 [120] [48, 48, 55] (by decide)⟩

/-- Claim C8: `gimp_item_tree_remove_item` returns the suggested
new-active item unchanged when one is given.  When the suggestion is
null, it returns the child of the vacated container at index
`min (old-index, n_children - 1)` (indices taken in the container AFTER
removal, whose length is one less than before) when the container is
still non-empty, else the non-root parent when there is one, else null
(which is exactly the item's parent link). -/
theorem c8_remove_returns {s : TreeState} {item : ℕ}
    (hatt : item ∈ containerList s (parentOf s item)) :
    (∀ a, (remove_item s item (some a)).2 = some a) ∧
    (1 < (containerList s (parentOf s item)).length →
      (remove_item s item none).2
        = some (((containerList s (parentOf s item)).erase item).getD
            (min (indexIn (containerList s (parentOf s item)) item)
              ((containerList s (parentOf s item)).length - 2)) 0)) ∧
    ((containerList s (parentOf s item)).length = 1 →
      (remove_item s item none).2 = parentOf s item) := by
  have hlen : ((containerList s (parentOf s item)).erase item).length
      = (containerList s (parentOf s item)).length - 1 :=
    List.length_erase_of_mem hatt
  refine ⟨fun a => rfl, fun hgt => ?_, fun heq => ?_⟩
  · simp only [remove_item]
    rw [if_pos (by rw [hlen]; omega), hlen,
      show (containerList s (parentOf s item)).length - 1 - 1
        = (containerList s (parentOf s item)).length - 2 from by omega]
  · simp only [remove_item]
    rw [if_neg (by rw [hlen, heq]; omega)]
    cases hp : parentOf s item <;> rfl

/-- A tree state for the C8 witness: root container [1, 2], both items
named and indexed. -/
def s8 : TreeState := ⟨[1, 2], [], [], [(1, [65]), (2, [66])], [([65], 1), ([66], 2)], 0⟩

/-- Witness for C8 at a concrete input: removing item 2 from the root
container [1, 2] with suggestion 7 returns 7; with a null suggestion it
returns item 1, the child at `min (1, 0)` of the vacated container. -/
theorem c8_remove_returns_witness :
    (2 ∈ containerList s8 (parentOf s8 2)) ∧
    (remove_item s8 2 (some 7)).2 = some 7 ∧
    (1 < (containerList s8 (parentOf s8 2)).length →
      (remove_item s8 2 none).2
        = some (((containerList s8 (parentOf s8 2)).erase 2).getD
            (min (indexIn (containerList s8 (parentOf s8 2)) 2)
              ((containerList s8 (parentOf s8 2)).length - 2)) 0)) :=
  ⟨by decide, (c8_remove_returns (by decide)).1 7,
    (c8_remove_returns (by decide)).2.1⟩

/-- Claim C10: the uniquification collision loop terminates: fuel
`|index| + 2` always makes the loop succeed.  Moreover every iteration
produces a name of the canonical shape `stem#<k>`, and a further
iteration on such a name strictly increases `k` by one (the index itself
is never modified by the loop). -/
theorem c10_loop_terminates :
    (∀ (h : NameHash) (name : List ℕ),
      (uniquefyLoop h name (h.length + 2)).isSome = true) ∧
    (∀ name : List ℕ, ∃ stem m,
      uniquefyStep name = stem ++ hashCh :: intRepr m) ∧
    (∀ (stem : List ℕ) (m : ℤ),
      uniquefyStep (stem ++ hashCh :: intRepr m)
        = stem ++ hashCh :: intRepr (m + 1)) :=
  ⟨uniquefyLoop_terminates, uniquefyStep_shape, uniquefyStep_canonical⟩

/-- `containerList` ignores the undo counter. -/
theorem containerList_bumpUndo (s : TreeState) (k : Option ℕ) :
    containerList { s with undoCount := s.undoCount + 1 } k
      = containerList s k := by
  cases k <;> rfl

/-- Claim C9: `gimp_item_tree_reorder_item` clamps the requested index to
`[0, n_items]` where `n_items` counts the destination's children minus one
when the move stays inside the same container; when neither the parent nor
the clamped index would change it does nothing; otherwise it pushes one
undo step exactly when asked to, and the item ends up at the clamped index
of the destination container. -/
theorem c9_reorder {s : TreeState} {item : ℕ} {newParent : Option ℕ}
    {newIndex : ℤ} {push : Bool}
    (hmem : item ∈ containerList s (parentOf s item))
    (hnd : (containerList s (parentOf s item)).Nodup)
    (hdest : newParent ≠ parentOf s item → item ∉ containerList s newParent) :
    ((newParent = parentOf s item ∧
        (max 0 (min newIndex
          (((if newParent = parentOf s item
              then (containerList s newParent).length - 1
              else (containerList s newParent).length) : ℕ) : ℤ))).toNat
          = indexIn (containerList s (parentOf s item)) item) →
      reorder_item s item newParent newIndex push = s) ∧
    ((reorder_item s item newParent newIndex push).undoCount
      = s.undoCount +
        (if (newParent = parentOf s item ∧
              (max 0 (min newIndex
                (((if newParent = parentOf s item
                    then (containerList s newParent).length - 1
                    else (containerList s newParent).length) : ℕ) : ℤ))).toNat
                = indexIn (containerList s (parentOf s item)) item)
          then 0 else if push then 1 else 0)) ∧
    (¬(newParent = parentOf s item ∧
        (max 0 (min newIndex
          (((if newParent = parentOf s item
              then (containerList s newParent).length - 1
              else (containerList s newParent).length) : ℕ) : ℤ))).toNat
          = indexIn (containerList s (parentOf s item)) item) →
      indexIn (containerList (reorder_item s item newParent newIndex push)
          newParent) item
        = (max 0 (min newIndex
            (((if newParent = parentOf s item
                then (containerList s newParent).length - 1
                else (containerList s newParent).length) : ℕ) : ℤ))).toNat) := by
  by_cases hsame : newParent = parentOf s item
  · by_cases hidx : (max 0 (min newIndex
        (((if newParent = parentOf s item
            then (containerList s newParent).length - 1
            else (containerList s newParent).length) : ℕ) : ℤ))).toNat
        = indexIn (containerList s (parentOf s item)) item
    · have hres : reorder_item s item newParent newIndex push = s := by
        simp only [reorder_item]
        rw [if_neg]
        push_neg
        exact ⟨hsame, hidx⟩
      refine ⟨fun _ => hres, ?_, fun hch => absurd ⟨hsame, hidx⟩ hch⟩
      rw [hres, if_pos ⟨hsame, hidx⟩]
      rfl
    · have hstep : reorder_item s item newParent newIndex push
          = setContainer (if push then { s with undoCount := s.undoCount + 1 } else s)
              (parentOf s item)
              (insertAt ((containerList s (parentOf s item)).erase item) item
                (max 0 (min newIndex
                  (((if newParent = parentOf s item
                      then (containerList s newParent).length - 1
                      else (containerList s newParent).length) : ℕ) : ℤ))).toNat) := by
        simp only [reorder_item]
        rw [if_pos (Or.inr hidx), if_neg (not_not_intro hsame), hsame]
      have hcond : ¬(newParent = parentOf s item ∧
          (max 0 (min newIndex
            (((if newParent = parentOf s item
                then (containerList s newParent).length - 1
                else (containerList s newParent).length) : ℕ) : ℤ))).toNat
            = indexIn (containerList s (parentOf s item)) item) :=
        fun h => hidx h.2
      refine ⟨fun hno => absurd hno.2 hidx, ?_, fun _ => ?_⟩
      · rw [hstep, undoCount_setContainer, if_neg hcond]
        cases push <;> simp
      · rw [hstep, hsame, containerList_setContainer_self]
        refine indexIn_insertAt hnd.not_mem_erase ?_
        rw [if_pos rfl, List.length_erase_of_mem hmem]
        omega
  · have hne : parentOf s item ≠ newParent := fun h => hsame h.symm
    have hstep : reorder_item s item newParent newIndex push
        = setContainer
            (setParent
              (setContainer
                (if push then { s with undoCount := s.undoCount + 1 } else s)
                (parentOf s item)
                ((containerList s (parentOf s item)).erase item))
              item newParent)
            newParent
            (insertAt
              (containerList
                (setParent
                  (setContainer
                    (if push then { s with undoCount := s.undoCount + 1 } else s)
                    (parentOf s item)
                    ((containerList s (parentOf s item)).erase item))
                  item newParent)
                newParent)
              item
              (max 0 (min newIndex
                (((if newParent = parentOf s item
                    then (containerList s newParent).length - 1
                    else (containerList s newParent).length) : ℕ) : ℤ))).toNat) := by
      simp only [reorder_item]
      rw [if_pos (Or.inl hsame), if_pos hsame]
    have hc1 : containerList
        (if push then { s with undoCount := s.undoCount + 1 } else s) newParent
        = containerList s newParent := by
      cases push
      · rfl
      · exact containerList_bumpUndo s newParent
    have hcond : ¬(newParent = parentOf s item ∧
        (max 0 (min newIndex
          (((if newParent = parentOf s item
              then (containerList s newParent).length - 1
              else (containerList s newParent).length) : ℕ) : ℤ))).toNat
          = indexIn (containerList s (parentOf s item)) item) :=
      fun h => hsame h.1
    refine ⟨fun hno => absurd hno.1 hsame, ?_, fun _ => ?_⟩
    · rw [hstep, undoCount_setContainer, undoCount_setParent,
        undoCount_setContainer, if_neg hcond]
      cases push <;> simp
    · rw [hstep, containerList_setContainer_self, containerList_setParent,
        containerList_setContainer_ne _ _ hne, hc1]
      refine indexIn_insertAt (hdest hsame) ?_
      rw [if_neg hsame]
      omega

/-- A tree state for the C9 witness, matching the spec's reorder scenario:
a branch 10 holding children [1, 2] and a root container [10, 3]. -/
def s9 : TreeState :=
  ⟨[10, 3], [(10, [1, 2])], [(1, 10), (2, 10)],
    [(10, [71]), (1, [65]), (2, [66]), (3, [67])],
    [([71], 10), ([65], 1), ([66], 2), ([67], 3)], 0⟩

/-- Witness for C9 at a concrete input: moving item 3 from the root into
branch 10 at requested index 1 lands it at clamped index 1 of branch 10
and pushes exactly one undo step. -/
theorem c9_reorder_witness :
    (3 ∈ containerList s9 (parentOf s9 3)) ∧
    indexIn (containerList (reorder_item s9 3 (some 10) 1 true) (some 10)) 3
      = (max 0 (min 1
          (((if (some 10 : Option ℕ) = parentOf s9 3
              then (containerList s9 (some 10)).length - 1
              else (containerList s9 (some 10)).length) : ℕ) : ℤ))).toNat ∧
    (reorder_item s9 3 (some 10) 1 true).undoCount = s9.undoCount + 1 :=
  ⟨by decide,
    (c9_reorder (by decide) (by decide) (by decide)).2.2 (by decide),
    by
      have h := (@c9_reorder s9 3 (some 10) 1 true
        (by decide) (by decide) (by decide)).2.1
      rw [h]
      decide⟩
